import Mathlib

/-!
Verification development for the SMCITE rooted labeled tree (src/src/tree/core.rs).

The Rust structure `Tree { root, nodes: HashSet<Node>, children: HashMap<Node,
HashSet<Node>>, parents: HashMap<Node, Node> }` with `Node = u32` is modelled
with `Nat` labels, `Finset Nat` for hash sets and Mathlib's `Finmap` for hash
maps (both are semantically unordered, matching the Rust containers; `u32`
arithmetic is never performed on labels, so `Nat` is a faithful label space).

Rust methods that mutate `self` and return `Result<(), TreeError>` are modelled
as functions `Tree → ... → Except TreeError Unit × Tree` returning both the
result value and the post-call state, so that partial mutation on error paths
is observable.  `unwrap()` on options that the code's invariants guarantee to
be `Some` is modelled with `Option.getD` (all theorems about those paths carry
well-formedness hypotheses under which the entry provably exists).

The recursive descent helpers (`subtree_size`'s inner `dfs`,
`calculate_height_from_node`, `collect_descendants`) recurse along the
`children` map, which is unbounded recursion in Rust; they are modelled with
explicit fuel.  For `collect_descendants` the visited-set guard bounds the real
recursion depth by the number of distinct child labels, and the canonical fuel
`descend_fuel` is proved sufficient (the fuel-exhausted fallback is
unreachable), so the model agrees with the Rust traversal on every state.
-/

namespace SMCITE

/-- Node labels (`type Node = u32` in the source). -/
abbrev Node := Nat

/-- `HashMap<Node, HashSet<Node>>` model. -/
abbrev ChildMap := Finmap fun _ : Node => Finset Node

/-- `HashMap<Node, Node>` model. -/
abbrev ParentMap := Finmap fun _ : Node => Node

/-- The `Tree` struct from `core.rs` (field for field). -/
structure Tree where
  root : Node
  nodes : Finset Node
  children : ChildMap
  parents : ParentMap
deriving DecidableEq

/-- The `TreeError` enum from `core.rs`. -/
inductive TreeError where
  | NodeNotFound
  | NodeAlreadyExists
  | TopologyError
deriving DecidableEq

instance {α : Type} [DecidableEq α] : DecidableEq (Except TreeError α) := fun a b =>
  match a, b with
  | .ok x, .ok y =>
    if h : x = y then .isTrue (by rw [h]) else .isFalse fun hh => h (by cases hh; rfl)
  | .ok _, .error _ => .isFalse fun h => by cases h
  | .error _, .ok _ => .isFalse fun h => by cases h
  | .error e, .error f =>
    if h : e = f then .isTrue (by rw [h]) else .isFalse fun hh => h (by cases hh; rfl)

namespace Tree

/-- The set of children recorded for `p` (`children.get(&p)`, with a missing
entry read as the empty set, exactly how every loop in the source treats it). -/
def childrenOf (t : Tree) (p : Node) : Finset Node :=
  (t.children.lookup p).getD ∅

/-- The list a Rust `for x in hash_set` loop iterates over.  `HashSet`
iteration order is arbitrary; the model fixes the ascending order (every fold
the source performs over such a list is proved order-independent, so any
choice is faithful).  Implemented with insertion sort so that it reduces in
the kernel. -/
def setList (s : Finset Node) : List Node :=
  Quot.liftOn s.1 (fun l => l.insertionSort (· ≤ ·)) fun l1 l2 h =>
    List.eq_of_perm_of_sorted
      ((l1.perm_insertionSort (· ≤ ·)).trans ((Quotient.exact (Quot.sound h)).trans
        (l2.perm_insertionSort (· ≤ ·)).symm))
      (List.sorted_insertionSort (· ≤ ·) l1) (List.sorted_insertionSort (· ≤ ·) l2)

/-- `Tree::len`. -/
def len (t : Tree) : Nat :=
  t.nodes.card

/-- `Tree::new`. -/
def new (root : Node) : Tree :=
  { root := root, nodes := {root}, children := ∅, parents := ∅ }

/-- `Tree::get_root`. -/
def get_root (t : Tree) : Node :=
  t.root

/-- `Tree::contains`. -/
def contains (t : Tree) (node : Node) : Bool :=
  node ∈ t.nodes

/-- `Tree::unsafe_add_node` (the unchecked insertion helper; renamed because
the Rust name contains a Lean keyword). -/
def raw_add_node (t : Tree) (parent child : Node) : Tree :=
  { root := t.root
    nodes := insert child t.nodes
    children := t.children.insert parent (insert child (t.childrenOf parent))
    parents := t.parents.insert child parent }

/-- `Tree::add_node`. -/
def add_node (t : Tree) (parent child : Node) : Except TreeError Unit × Tree :=
  if parent ∉ t.nodes then (.error .NodeNotFound, t)
  else if child ∈ t.nodes then (.error .NodeAlreadyExists, t)
  else (.ok (), t.raw_add_node parent child)

/-- `Tree::get_parent`. -/
def get_parent (t : Tree) (node : Node) : Option Node :=
  t.parents.lookup node

/-- `Tree::is_child`. -/
def is_child (t : Tree) (child parent : Node) : Bool :=
  t.parents.lookup child = some parent

/-- `Tree::is_parent`. -/
def is_parent (t : Tree) (parent child : Node) : Bool :=
  t.is_child child parent

/-- A `for child in set { unsafe_add_node(parent, child) }` loop
(used for the grandchildren fix-up and the cross re-attachment in
`swap_labels`); the iteration order of a Rust `HashSet` is arbitrary, and the
result is proved independent of the order. -/
def add_nodes_loop (t : Tree) (parent : Node) (cs : List Node) : Tree :=
  cs.foldl (fun acc c => acc.raw_add_node parent c) t

/-- The sibling fix-up loop of the adjacent case of `swap_labels`:
`for node in siblings { if *node != child { unsafe_add_node(child, *node) } }`. -/
def add_siblings_loop (t : Tree) (child : Node) (cs : List Node) : Tree :=
  cs.foldl (fun acc c => if c ≠ child then acc.raw_add_node child c else acc) t

/-- The `if let Some(parent) = parent_i { parents.insert(j, parent);
if let Some(children) = children.get_mut(&parent) { children.remove(&i);
children.insert(j); } }` block at the end of `swap_labels` (non-adjacent case,
distinct parents), with `old` the label being removed from the parent's child
set and `new` the label replacing it. -/
def reparent_after_swap (t : Tree) (old new : Node) (parentOpt : Option Node) : Tree :=
  match parentOpt with
  | some p =>
    let t' : Tree := { t with parents := t.parents.insert new p }
    match t'.children.lookup p with
    | some cs => { t' with children := t'.children.insert p (insert new (cs.erase old)) }
    | none => t'
  | none => t

/-- The adjacent (parent-child) case of `Tree::swap_labels`, verbatim from the
source starting at the `let child`/`let parent` selection: `t1` is the state
after the root fix-up, `child` the lower and `parent` the upper node of the
adjacent pair.  The two `unwrap()` calls (on `children.remove(&parent)` and
`children.get_mut(&grandparent)`) are modelled with `Option.getD ∅`;
`if let Some(...)` becomes `Option.elim`. -/
def swap_adjacent_expr (t1 : Tree) (child parent : Node) : Tree :=
  let grandchildren := t1.children.lookup child
  let t2 : Tree := { t1 with children := t1.children.erase child }
  let siblings := (t2.children.lookup parent).getD ∅
  let t3 : Tree := { t2 with children := t2.children.erase parent }
  let t4 : Tree := { t3 with parents := t3.parents.erase child }
  let t5 : Tree :=
    (t4.parents.lookup parent).elim t4 fun gp =>
      let t4a : Tree := { t4 with parents := t4.parents.erase parent }
      let gset := (t4a.children.lookup gp).getD ∅
      let t4b : Tree :=
        { t4a with children := t4a.children.insert gp (gset.erase parent) }
      t4b.raw_add_node gp child
  let t6 := t5.raw_add_node child parent
  let t7 : Tree := grandchildren.elim t6 fun s => t6.add_nodes_loop parent (setList s)
  t7.add_siblings_loop child (setList siblings)

/-- The non-adjacent case of `Tree::swap_labels`, verbatim from the source
(`t1` is the state after the root fix-up). -/
def swap_nonadjacent_expr (t1 : Tree) (i j : Node) : Tree :=
  let children_i := t1.children.lookup i
  let ta : Tree := { t1 with children := t1.children.erase i }
  let children_j := ta.children.lookup j
  let tb : Tree := { ta with children := ta.children.erase j }
  let parent_i := tb.parents.lookup i
  let tc : Tree := { tb with parents := tb.parents.erase i }
  let parent_j := tc.parents.lookup j
  let td : Tree := { tc with parents := tc.parents.erase j }
  let te : Tree := children_i.elim td fun s => td.add_nodes_loop j (setList s)
  let tf : Tree := children_j.elim te fun s => te.add_nodes_loop i (setList s)
  match parent_i, parent_j with
  | some p1, some p2 =>
    if p1 = p2 then { tf with parents := (tf.parents.insert i p1).insert j p1 }
    else reparent_after_swap (reparent_after_swap tf i j parent_i) j i parent_j
  | some _, none => reparent_after_swap (reparent_after_swap tf i j parent_i) j i parent_j
  | none, _ => reparent_after_swap (reparent_after_swap tf i j parent_i) j i parent_j

/-- `Tree::swap_labels`, translated branch by branch from the source; the two
non-trivial branch bodies are the named expressions above. -/
def swap_labels (t : Tree) (i j : Node) : Except TreeError Unit × Tree :=
  if i ∉ t.nodes ∨ j ∉ t.nodes then (.error .NodeNotFound, t)
  else if i = j then (.ok (), t)
  else
    let t1 : Tree :=
      if t.root = i then { t with root := j }
      else if t.root = j then { t with root := i }
      else t
    let iChildJ := t1.is_child i j
    let jChildI := t1.is_child j i
    if iChildJ || jChildI then
      if iChildJ && jChildI then (.error .TopologyError, t1)
      else
        let child := if iChildJ then i else j
        let parent := if iChildJ then j else i
        (.ok (), swap_adjacent_expr t1 child parent)
    else
      (.ok (), swap_nonadjacent_expr t1 i j)

/-- All labels that occur inside some `children` entry (every label the
descendant traversal can ever insert); used to size the traversal fuel. -/
def childVals (t : Tree) : Finset Node :=
  t.children.keys.sup fun k => t.childrenOf k

/-- Canonical fuel for `collect_descendants`: the visited-set guard lets the
recursion descend at most once per distinct child label, so this fuel is
provably never exhausted. -/
def descend_fuel (t : Tree) : Nat :=
  (childVals t).card + 1

/-- The list a `for child in children[node]` loop iterates over (arbitrary
order, matching `HashSet` iteration). -/
def childList (t : Tree) (node : Node) : List Node :=
  setList (t.childrenOf node)

/-- The `for child in children` loop body of `Tree::collect_descendants`:
`if descendants.insert(child) { recurse into child }` — the membership guard
is the `insert` return value, and `recurse` is the (fuel-capped) recursive
call supplied by `collect_descendants`. -/
def collect_list (t : Tree) (recurse : Node → Finset Node → Finset Node) :
    List Node → Finset Node → Finset Node
  | [], desc => desc
  | c :: rest, desc =>
    if c ∈ desc then collect_list t recurse rest desc
    else collect_list t recurse rest (recurse c (insert c desc))

/-- `Tree::collect_descendants`, fuel-indexed: iterate over `node`'s recorded
children, inserting and recursing on first sight.  The fuel-exhausted fallback
(insert without recursing) is proved unreachable for fuel `descend_fuel`. -/
def collect_descendants (t : Tree) : Nat → Node → Finset Node → Finset Node
  | 0, _, desc => desc
  | fuel + 1, node, desc => collect_list t (collect_descendants t fuel) (t.childList node) desc

/-- `Tree::get_descendants`. -/
def get_descendants (t : Tree) (node : Node) : Finset Node :=
  collect_descendants t (descend_fuel t) node ∅

/-- The inner `dfs` of `Tree::subtree_size`, fuel-indexed (the Rust recursion
is unbounded; fuel `t.nodes.card` is proved sufficient on well-formed trees). -/
def size_dfs (t : Tree) : Nat → Node → Nat
  | 0, _ => 1
  | fuel + 1, node => 1 + ((t.childList node).map (size_dfs t fuel)).sum

/-- `Tree::subtree_size`. -/
def subtree_size (t : Tree) (node : Node) : Except TreeError Nat :=
  if node ∈ t.nodes then .ok (size_dfs t t.nodes.card node) else .error .NodeNotFound

/-- `Tree::calculate_height_from_node`, fuel-indexed body: a node with no
`children` entry is a leaf of height 1 (no membership check); otherwise
`1 + max` over the children (`max().unwrap_or(0)` is `foldr max 0`). -/
def height_dfs (t : Tree) : Nat → Node → Nat
  | 0, _ => 1
  | fuel + 1, node =>
    match t.children.lookup node with
    | none => 1
    | some cs => ((setList cs).map (height_dfs t fuel)).foldr max 0 + 1

/-- `Tree::calculate_height_from_node` with its canonical fuel. -/
def calculate_height_from_node (t : Tree) (node : Node) : Nat :=
  height_dfs t t.nodes.card node

/-- `Tree::calculate_height`. -/
def calculate_height (t : Tree) : Nat :=
  t.calculate_height_from_node t.get_root

/-- `Tree::is_valid`, check for check from the source: (1) every non-root node
has a parent entry; (2) every member of every `children` entry points back to
that parent; (3) no self-parent and no self-child. -/
def is_valid (t : Tree) : Bool :=
  ((setList t.nodes).all fun n => n == t.root || (t.parents.lookup n).isSome) &&
  ((setList t.children.keys).all fun p =>
    (setList (t.childrenOf p)).all fun c =>
      match t.parents.lookup c with
      | some cp => cp == p
      | none => false) &&
  ((setList t.nodes).all fun n =>
    (match t.parents.lookup n with
     | some p => !(p == n)
     | none => true) &&
    !(decide (n ∈ t.childrenOf n)))

/-- `Tree::prune_and_reattach`.  The `parents.get(&node).unwrap()` is modelled
with `getD node` (the entry provably exists on well-formed trees, since the
descendant check has already ruled out `node = root`). -/
def prune_and_reattach (t : Tree) (node new_parent : Node) : Except TreeError Unit × Tree :=
  if node ∉ t.nodes ∨ new_parent ∉ t.nodes then (.error .NodeNotFound, t)
  else if node = new_parent then (.error .NodeAlreadyExists, t)
  else if new_parent ∈ t.get_descendants node then (.error .TopologyError, t)
  else
    let parent := (t.parents.lookup node).getD node
    let t' : Tree :=
      match t.children.lookup parent with
      | some s =>
        let s' := s.erase node
        if s' = ∅ then { t with children := t.children.erase parent }
        else { t with children := t.children.insert parent s' }
      | none => t
    (.ok (), t'.raw_add_node new_parent node)

/-- The persisted form of a `Tree` produced by serde: `root` and a sequence
view of each collection.  `children` goes through `_map_to_vec` (a `BTreeMap`,
so keys are in ascending order, each `HashSet` value flattened to a `Vec`);
`nodes` (a `HashSet`) and `parents` (a `HashMap`) are serialized directly as a
sequence and a map by the derived implementation. -/
structure SerTree where
  root : Node
  nodes : List Node
  children : List (Node × List Node)
  parents : List (Node × Node)
deriving DecidableEq

/-- `_map_to_vec` from `core.rs`: the `children` map as an ordered mapping from
each parent to the sequence of its children. -/
def map_to_vec (m : ChildMap) : List (Node × List Node) :=
  (setList m.keys).map fun k => (k, setList ((m.lookup k).getD ∅))

/-- `_vec_to_map` from `core.rs`: rebuild the `children` map by collecting the
key/value pairs. -/
def vec_to_map (l : List (Node × List Node)) : ChildMap :=
  l.foldl (fun acc kv => acc.insert kv.1 kv.2.toFinset) ∅

/-- The serialized view of the `parents` map (serde serializes a `HashMap` as
a map; `BTreeMap`-style ascending key order is fixed for determinism). -/
def parents_to_vec (m : ParentMap) : List (Node × Node) :=
  (setList m.keys).map fun k => (k, (m.lookup k).getD 0)

/-- Rebuild the `parents` map from its serialized view. -/
def vec_to_parents (l : List (Node × Node)) : ParentMap :=
  l.foldl (fun acc kv => acc.insert kv.1 kv.2) ∅

/-- Serialization of a whole `Tree` (the serde `Serialize` derive plus the
custom `children` serializer). -/
def serializeTree (t : Tree) : SerTree :=
  { root := t.root
    nodes := setList t.nodes
    children := map_to_vec t.children
    parents := parents_to_vec t.parents }

/-- Deserialization of a `Tree` (the serde `Deserialize` derive plus the
custom `children` deserializer). -/
def deserializeTree (s : SerTree) : Tree :=
  { root := s.root
    nodes := s.nodes.toFinset
    children := vec_to_map s.children
    parents := vec_to_parents s.parents }

end Tree

/-- Trees reachable from `Tree::new` by successful mutations. -/
inductive Reachable : Tree → Prop where
  | new (root : Node) : Reachable (Tree.new root)
  | add {t : Tree} (p c : Node) (h : Reachable t)
      (hok : (t.add_node p c).1 = .ok ()) : Reachable (t.add_node p c).2
  | swap {t : Tree} (i j : Node) (h : Reachable t)
      (hok : (t.swap_labels i j).1 = .ok ()) : Reachable (t.swap_labels i j).2
  | prune {t : Tree} (n np : Node) (h : Reachable t)
      (hok : (t.prune_and_reattach n np).1 = .ok ()) : Reachable (t.prune_and_reattach n np).2

/-- The single-step child relation read off the `children` map. -/
def childRel (t : Tree) (a b : Node) : Prop :=
  b ∈ t.childrenOf a

/-- Strict descendant: reachable in one or more `children` steps. -/
def Descendant (t : Tree) (a b : Node) : Prop :=
  Relation.TransGen (childRel t) a b

/-- The structural invariants of §3 of the design (the properties every tree
built by the public operations satisfies); acyclicity is phrased as the
existence of a depth function compatible with `parents`. -/
structure WF (t : Tree) : Prop where
  root_mem : t.root ∈ t.nodes
  parents_mem : ∀ {n p : Node}, t.parents.lookup n = some p →
    n ∈ t.nodes ∧ p ∈ t.nodes ∧ n ≠ t.root
  parents_total : ∀ {n : Node}, n ∈ t.nodes → n ≠ t.root → (t.parents.lookup n).isSome
  consistent : ∀ {p c : Node}, c ∈ t.childrenOf p ↔ t.parents.lookup c = some p
  entries_nonempty : ∀ {p : Node} {s : Finset Node}, t.children.lookup p = some s → s.Nonempty
  entries_mem : ∀ {p : Node} {s : Finset Node}, t.children.lookup p = some s → p ∈ t.nodes
  acyclic : ∃ D : Node → Nat, D t.root = 0 ∧
    ∀ {n p : Node}, t.parents.lookup n = some p → D n = D p + 1

/-- `k`-fold iteration of the `parents` map (proof-layer helper used to bound
depth functions by the node count). -/
def iterParent (t : Tree) : Nat → Node → Option Node
  | 0, n => some n
  | k + 1, n => (iterParent t k n).bind fun m => t.parents.lookup m

/-- The transposition of the labels `i` and `j` (the renaming `swap_labels`
realizes on every component of a well-formed tree). -/
def swapFn (i j : Node) (n : Node) : Node :=
  if n = i then j else if n = j then i else n

/-- The concrete tree of the source's `swap_1_3` test: root 0 with edges
(0,1),(1,2),(2,3),(0,10),(10,11), built through the public constructors. -/
def simpleTree : Tree :=
  ((((((Tree.new 0).add_node 0 1).2.add_node 1 2).2.add_node 2 3).2.add_node 0
    10).2.add_node 10 11).2

/-- The tree the `swap_1_3` test expects: root 0 with edges
(0,3),(3,2),(2,1),(0,10),(10,11), written out as literal maps. -/
def swapExpectedT : Tree :=
  { root := 0
    nodes := {0, 1, 2, 3, 10, 11}
    children := ((((∅ : ChildMap).insert 0 {3, 10}).insert 3 {2}).insert 2 {1}).insert 10 {11}
    parents := (((((∅ : ParentMap).insert 3 0).insert 2 3).insert 1 2).insert 10 0).insert 11 10 }

/-- A corrupted state (not constructible through the API): labels 0 and 1 are
mutually adjacent, so `swap_labels 0 1` reaches the defensive `TopologyError`
check only after the root fix-up has already replaced the root. -/
def badT : Tree :=
  { root := 0
    nodes := {0, 1}
    children := ((∅ : ChildMap).insert 0 {1}).insert 1 {0}
    parents := ((∅ : ParentMap).insert 0 1).insert 1 0 }

/-- A corrupted state whose `children` map has an entry under the absent label
5; `calculate_height_from_node 5` follows that entry and returns 2. -/
def corruptT : Tree :=
  { root := 0
    nodes := {0}
    children := (∅ : ChildMap).insert 5 {7}
    parents := ∅ }

end SMCITE

-- ## Groundwork lemmas

namespace SMCITE

/-- Auxiliary: two maps over the same list are equal iff they agree on its
elements. -/
theorem list_map_eq_map_iff {α β : Type} {f g : α → β} :
    ∀ {l : List α}, l.map f = l.map g ↔ ∀ a ∈ l, f a = g a := by
  intro l
  induction l with
  | nil => simp
  | cons a l ih => simp [ih]

namespace Tree

theorem coe_setList (s : Finset Node) : (↑(setList s) : Multiset Node) = s.val := by
  rcases s with ⟨m, hm⟩
  induction m using Quot.ind with
  | _ l => exact Quot.sound (l.perm_insertionSort (· ≤ ·))

theorem mem_setList {s : Finset Node} {a : Node} : a ∈ setList s ↔ a ∈ s := by
  rw [← Multiset.mem_coe, coe_setList]
  exact Iff.rfl

theorem setList_nodup (s : Finset Node) : (setList s).Nodup := by
  rw [← Multiset.coe_nodup, coe_setList]
  exact s.nodup

theorem setList_injective {s t : Finset Node} (h : setList s = setList t) : s = t :=
  Finset.val_inj.mp (by rw [← coe_setList, ← coe_setList, h])

theorem finset_eq_iff_setList {s t : Finset Node} : s = t ↔ setList s = setList t :=
  ⟨fun h => by rw [h], setList_injective⟩

theorem childmap_eq_iff {m1 m2 : ChildMap} : m1 = m2 ↔ map_to_vec m1 = map_to_vec m2 := by
  constructor
  · intro h; rw [h]
  · intro h
    have hfst : ∀ m : ChildMap, (map_to_vec m).map Prod.fst = setList m.keys := by
      intro m
      simp [map_to_vec, List.map_map, Function.comp_def]
    have hkeys : m1.keys = m2.keys := by
      apply setList_injective
      rw [← hfst, ← hfst, h]
    apply Finmap.ext_lookup
    intro x
    by_cases hx : x ∈ m1.keys
    · have hx2 : x ∈ m2.keys := hkeys ▸ hx
      have hmem : x ∈ setList m1.keys := mem_setList.mpr hx
      rw [map_to_vec, map_to_vec, ← hkeys] at h
      have hfun := list_map_eq_map_iff.mp h x hmem
      have hval : setList ((m1.lookup x).getD ∅) = setList ((m2.lookup x).getD ∅) :=
        congrArg Prod.snd hfun
      have hv := setList_injective hval
      have h1 : (m1.lookup x).isSome := Finmap.lookup_isSome.mpr (Finmap.mem_keys.mp hx)
      have h2 : (m2.lookup x).isSome := Finmap.lookup_isSome.mpr (Finmap.mem_keys.mp hx2)
      rcases Option.isSome_iff_exists.mp h1 with ⟨v1, hv1⟩
      rcases Option.isSome_iff_exists.mp h2 with ⟨v2, hv2⟩
      rw [hv1, hv2]
      rw [hv1, hv2] at hv
      simpa using hv
    · have hx2 : x ∉ m2.keys := hkeys ▸ hx
      rw [Finmap.lookup_eq_none.mpr (fun hc => hx (Finmap.mem_keys.mpr hc)),
        Finmap.lookup_eq_none.mpr (fun hc => hx2 (Finmap.mem_keys.mpr hc))]

theorem parentmap_eq_iff {m1 m2 : ParentMap} :
    m1 = m2 ↔ parents_to_vec m1 = parents_to_vec m2 := by
  constructor
  · intro h; rw [h]
  · intro h
    have hfst : ∀ m : ParentMap, (parents_to_vec m).map Prod.fst = setList m.keys := by
      intro m
      simp [parents_to_vec, List.map_map, Function.comp_def]
    have hkeys : m1.keys = m2.keys := by
      apply setList_injective
      rw [← hfst, ← hfst, h]
    apply Finmap.ext_lookup
    intro x
    by_cases hx : x ∈ m1.keys
    · have hx2 : x ∈ m2.keys := hkeys ▸ hx
      have hmem : x ∈ setList m1.keys := mem_setList.mpr hx
      rw [parents_to_vec, parents_to_vec, ← hkeys] at h
      have hfun := list_map_eq_map_iff.mp h x hmem
      have hval : (m1.lookup x).getD 0 = (m2.lookup x).getD 0 := congrArg Prod.snd hfun
      have h1 : (m1.lookup x).isSome := Finmap.lookup_isSome.mpr (Finmap.mem_keys.mp hx)
      have h2 : (m2.lookup x).isSome := Finmap.lookup_isSome.mpr (Finmap.mem_keys.mp hx2)
      rcases Option.isSome_iff_exists.mp h1 with ⟨v1, hv1⟩
      rcases Option.isSome_iff_exists.mp h2 with ⟨v2, hv2⟩
      rw [hv1, hv2]
      rw [hv1, hv2] at hval
      simpa using hval
    · have hx2 : x ∉ m2.keys := hkeys ▸ hx
      rw [Finmap.lookup_eq_none.mpr (fun hc => hx (Finmap.mem_keys.mpr hc)),
        Finmap.lookup_eq_none.mpr (fun hc => hx2 (Finmap.mem_keys.mpr hc))]

/-- Two trees are equal iff their serialized views are equal: a
kernel-computable equality test used to settle concrete scenarios. -/
theorem tree_eq_iff_ser {t1 t2 : Tree} : t1 = t2 ↔ serializeTree t1 = serializeTree t2 := by
  constructor
  · intro h; rw [h]
  · intro h
    rcases t1 with ⟨r1, n1, c1, p1⟩
    rcases t2 with ⟨r2, n2, c2, p2⟩
    simp only [serializeTree, SerTree.mk.injEq] at h
    obtain ⟨hr, hn, hc, hp⟩ := h
    simp only [Tree.mk.injEq]
    exact ⟨hr, setList_injective hn, childmap_eq_iff.mpr hc, parentmap_eq_iff.mpr hp⟩

end Tree

end SMCITE

-- ## Basic characterization lemmas for the primitive mutations

namespace SMCITE

namespace Tree

/-- Extensionality for trees through map lookups. -/
theorem tree_ext {t1 t2 : Tree} (hr : t1.root = t2.root) (hn : t1.nodes = t2.nodes)
    (hc : ∀ x, t1.children.lookup x = t2.children.lookup x)
    (hp : ∀ x, t1.parents.lookup x = t2.parents.lookup x) : t1 = t2 := by
  rcases t1 with ⟨r1, n1, c1, p1⟩
  rcases t2 with ⟨r2, n2, c2, p2⟩
  simp only [Tree.mk.injEq]
  exact ⟨hr, hn, Finmap.ext_lookup hc, Finmap.ext_lookup hp⟩

@[simp]
theorem root_raw_add_node (t : Tree) (p c : Node) : (t.raw_add_node p c).root = t.root := rfl

@[simp]
theorem nodes_raw_add_node (t : Tree) (p c : Node) :
    (t.raw_add_node p c).nodes = insert c t.nodes := rfl

theorem parents_lookup_raw_add_node (t : Tree) (p c x : Node) :
    (t.raw_add_node p c).parents.lookup x =
      if x = c then some p else t.parents.lookup x := by
  by_cases h : x = c
  · subst h; simp [raw_add_node, Finmap.lookup_insert]
  · simp [raw_add_node, h, Finmap.lookup_insert_of_ne _ h]

theorem children_lookup_raw_add_node (t : Tree) (p c x : Node) :
    (t.raw_add_node p c).children.lookup x =
      if x = p then some (insert c (t.childrenOf p)) else t.children.lookup x := by
  by_cases h : x = p
  · subst h; simp [raw_add_node, Finmap.lookup_insert]
  · simp [raw_add_node, h, Finmap.lookup_insert_of_ne _ h]

theorem childrenOf_raw_add_node (t : Tree) (p c x : Node) :
    (t.raw_add_node p c).childrenOf x =
      if x = p then insert c (t.childrenOf p) else t.childrenOf x := by
  by_cases h : x = p <;>
    simp [childrenOf, children_lookup_raw_add_node, h]

@[simp]
theorem add_nodes_loop_nil (t : Tree) (p : Node) : t.add_nodes_loop p [] = t := rfl

theorem add_nodes_loop_cons (t : Tree) (p c : Node) (cs : List Node) :
    t.add_nodes_loop p (c :: cs) = (t.raw_add_node p c).add_nodes_loop p cs := rfl

@[simp]
theorem root_add_nodes_loop (t : Tree) (p : Node) (cs : List Node) :
    (t.add_nodes_loop p cs).root = t.root := by
  induction cs generalizing t with
  | nil => rfl
  | cons c cs ih => simpa [add_nodes_loop_cons] using ih (t.raw_add_node p c)

@[simp]
theorem nodes_add_nodes_loop (t : Tree) (p : Node) (cs : List Node) :
    (t.add_nodes_loop p cs).nodes = t.nodes ∪ cs.toFinset := by
  induction cs generalizing t with
  | nil => simp
  | cons c cs ih =>
    rw [add_nodes_loop_cons, ih (t.raw_add_node p c)]
    simp only [nodes_raw_add_node, List.toFinset_cons]
    rw [Finset.insert_union, Finset.union_insert]

theorem parents_lookup_add_nodes_loop (t : Tree) (p : Node) (cs : List Node) (x : Node) :
    (t.add_nodes_loop p cs).parents.lookup x =
      if x ∈ cs then some p else t.parents.lookup x := by
  induction cs generalizing t with
  | nil => simp
  | cons c cs ih =>
    rw [add_nodes_loop_cons, ih (t.raw_add_node p c)]
    by_cases hmem : x ∈ cs
    · simp [hmem]
    · by_cases hc : x = c
      · subst hc; simp [hmem, parents_lookup_raw_add_node]
      · simp [hmem, hc, parents_lookup_raw_add_node]

theorem children_lookup_add_nodes_loop_ne (t : Tree) (p : Node) (cs : List Node) (x : Node)
    (hx : x ≠ p) :
    (t.add_nodes_loop p cs).children.lookup x = t.children.lookup x := by
  induction cs generalizing t with
  | nil => rfl
  | cons c cs ih =>
    rw [add_nodes_loop_cons, ih (t.raw_add_node p c), children_lookup_raw_add_node]
    simp [hx]

theorem children_lookup_add_nodes_loop_self (t : Tree) (p : Node) (cs : List Node)
    (hcs : cs ≠ []) :
    (t.add_nodes_loop p cs).children.lookup p = some (t.childrenOf p ∪ cs.toFinset) := by
  induction cs generalizing t with
  | nil => exact absurd rfl hcs
  | cons c cs ih =>
    rw [add_nodes_loop_cons]
    by_cases h : cs = []
    · subst h
      rw [add_nodes_loop_nil, children_lookup_raw_add_node, if_pos rfl]
      simp [Finset.insert_eq, Finset.union_comm]
    · rw [ih (t.raw_add_node p c) h, childrenOf_raw_add_node]
      simp [Finset.insert_union, Finset.union_insert]

@[simp]
theorem add_siblings_loop_nil (t : Tree) (child : Node) : t.add_siblings_loop child [] = t := rfl

theorem add_siblings_loop_cons (t : Tree) (child c : Node) (cs : List Node) :
    t.add_siblings_loop child (c :: cs) =
      (if c ≠ child then t.raw_add_node child c else t).add_siblings_loop child cs := rfl

theorem add_siblings_loop_eq (t : Tree) (child : Node) (cs : List Node) :
    t.add_siblings_loop child cs = t.add_nodes_loop child (cs.filter (· ≠ child)) := by
  induction cs generalizing t with
  | nil => rfl
  | cons c cs ih =>
    rw [add_siblings_loop_cons, ih]
    by_cases h : c = child
    · subst h; simp [List.filter_cons]
    · simp [List.filter_cons, h, add_nodes_loop_cons]

end Tree

end SMCITE

-- ## Depth and acyclicity lemmas for well-formed trees

namespace SMCITE

theorem childRel_iff_lookup {t : Tree} (h : WF t) {a b : Node} :
    childRel t a b ↔ t.parents.lookup b = some a :=
  h.consistent

theorem childRel_functional {t : Tree} (h : WF t) {y z x : Node}
    (hy : childRel t y x) (hz : childRel t z x) : y = z := by
  have h1 := (childRel_iff_lookup h).mp hy
  have h2 := (childRel_iff_lookup h).mp hz
  rw [h1] at h2
  exact Option.some_inj.mp h2

theorem childRel_mem {t : Tree} (h : WF t) {a b : Node} (hab : childRel t a b) :
    a ∈ t.nodes ∧ b ∈ t.nodes := by
  have := h.parents_mem ((childRel_iff_lookup h).mp hab)
  exact ⟨this.2.1, this.1⟩

theorem childRel_depth {t : Tree} (h : WF t) {D : Node → Nat}
    (hDs : ∀ {n p : Node}, t.parents.lookup n = some p → D n = D p + 1)
    {a b : Node} (hab : childRel t a b) : D b = D a + 1 :=
  hDs ((childRel_iff_lookup h).mp hab)

theorem rtg_depth_le {t : Tree} (h : WF t) {D : Node → Nat}
    (hDs : ∀ {n p : Node}, t.parents.lookup n = some p → D n = D p + 1)
    {a b : Node} (hab : Relation.ReflTransGen (childRel t) a b) : D a ≤ D b := by
  induction hab with
  | refl => exact le_refl _
  | tail _hby hyx ih => rw [childRel_depth h hDs hyx]; omega

theorem tg_depth_lt {t : Tree} (h : WF t) {D : Node → Nat}
    (hDs : ∀ {n p : Node}, t.parents.lookup n = some p → D n = D p + 1)
    {a b : Node} (hab : Relation.TransGen (childRel t) a b) : D a < D b := by
  induction hab with
  | single hx => rw [childRel_depth h hDs hx]; omega
  | tail _hby hyx ih => rw [childRel_depth h hDs hyx]; omega

theorem descendant_irrefl {t : Tree} (h : WF t) (n : Node) : ¬ Descendant t n n := by
  intro hd
  obtain ⟨D, _hD0, hDs⟩ := h.acyclic
  exact absurd (tg_depth_lt h (fun {a b} => hDs) hd) (lt_irrefl _)

theorem descendant_mem {t : Tree} (h : WF t) {a b : Node} (hab : Descendant t a b) :
    a ∈ t.nodes ∧ b ∈ t.nodes := by
  induction hab with
  | single hx => exact childRel_mem h hx
  | tail _hby hyx ih => exact ⟨ih.1, (childRel_mem h hyx).2⟩

theorem root_no_parent {t : Tree} (h : WF t) : t.parents.lookup t.root = none := by
  cases hl : t.parents.lookup t.root with
  | none => rfl
  | some p => exact absurd rfl (h.parents_mem hl).2.2

theorem root_not_child {t : Tree} (h : WF t) {a : Node} : ¬ childRel t a t.root := by
  intro hc
  rw [childRel_iff_lookup h, root_no_parent h] at hc
  cases hc

theorem root_not_descendant {t : Tree} (h : WF t) {a : Node} : ¬ Descendant t a t.root := by
  intro hd
  rcases (Relation.TransGen.tail'_iff).mp hd with ⟨b, _hb, hbr⟩
  exact root_not_child h hbr

theorem not_mutual_adjacent {t : Tree} (h : WF t) {i j : Node}
    (hij : t.parents.lookup i = some j) (hji : t.parents.lookup j = some i) : False := by
  obtain ⟨D, _hD0, hDs⟩ := h.acyclic
  have h1 := hDs hij
  have h2 := hDs hji
  omega

theorem iterParent_spec {t : Tree} (h : WF t) {D : Node → Nat} (hD0 : D t.root = 0)
    (hDs : ∀ {n p : Node}, t.parents.lookup n = some p → D n = D p + 1)
    {n : Node} (hn : n ∈ t.nodes) :
    ∀ k, k ≤ D n → ∃ m, iterParent t k n = some m ∧ m ∈ t.nodes ∧ D m + k = D n := by
  intro k
  induction k with
  | zero => exact fun _ => ⟨n, rfl, hn, by omega⟩
  | succ k ih =>
    intro hk
    obtain ⟨m, hm, hmm, hDm⟩ := ih (by omega)
    have hmroot : m ≠ t.root := by
      intro hroot
      rw [hroot, hD0] at hDm
      omega
    obtain ⟨p, hp⟩ := Option.isSome_iff_exists.mp (h.parents_total hmm hmroot)
    refine ⟨p, ?_, (h.parents_mem hp).2.1, ?_⟩
    · rw [iterParent, hm]
      exact hp
    · have := hDs hp
      omega

theorem depth_lt_card {t : Tree} (h : WF t) {D : Node → Nat} (hD0 : D t.root = 0)
    (hDs : ∀ {n p : Node}, t.parents.lookup n = some p → D n = D p + 1)
    {n : Node} (hn : n ∈ t.nodes) : D n < t.nodes.card := by
  have hcard := Finset.card_le_card_of_injOn
    (fun k => (iterParent t k n).getD 0)
    (fun k hk => by
      obtain ⟨m, hm, hmm, _⟩ := iterParent_spec h hD0 (fun {a b} => hDs) hn k
        (by simpa using Nat.lt_succ_iff.mp (Finset.mem_range.mp hk))
      simpa [hm] using hmm)
    (fun k1 hk1 k2 hk2 heq => by
      obtain ⟨m1, hm1, _, hD1⟩ := iterParent_spec h hD0 (fun {a b} => hDs) hn k1
        (by simpa using Nat.lt_succ_iff.mp (Finset.mem_range.mp hk1))
      obtain ⟨m2, hm2, _, hD2⟩ := iterParent_spec h hD0 (fun {a b} => hDs) hn k2
        (by simpa using Nat.lt_succ_iff.mp (Finset.mem_range.mp hk2))
      have heq2 : (iterParent t k1 n).getD 0 = (iterParent t k2 n).getD 0 := heq
      rw [hm1, hm2] at heq2
      simp only [Option.getD_some] at heq2
      rw [heq2] at hD1
      omega)
  simpa using hcard

theorem root_reaches {t : Tree} (h : WF t) {n : Node} (hn : n ∈ t.nodes)
    (hr : n ≠ t.root) : Descendant t t.root n := by
  obtain ⟨D, hD0, hDs⟩ := h.acyclic
  have key : ∀ k n, n ∈ t.nodes → n ≠ t.root → D n ≤ k → Descendant t t.root n := by
    intro k
    induction k with
    | zero =>
      intro n hn hr hk
      obtain ⟨p, hp⟩ := Option.isSome_iff_exists.mp (h.parents_total hn hr)
      have := hDs hp
      omega
    | succ k ih =>
      intro n hn hr hk
      obtain ⟨p, hp⟩ := Option.isSome_iff_exists.mp (h.parents_total hn hr)
      have hchild : childRel t p n := (childRel_iff_lookup h).mpr hp
      have hpmem : p ∈ t.nodes := (h.parents_mem hp).2.1
      have hDn := hDs hp
      by_cases hproot : p = t.root
      · subst hproot
        exact Relation.TransGen.single hchild
      · exact Relation.TransGen.tail (ih p hpmem hproot (by omega)) hchild
  exact key (D n) n hn hr (le_refl _)

theorem chain_comparable {t : Tree} (h : WF t) {a b x : Node}
    (ha : Relation.ReflTransGen (childRel t) a x)
    (hb : Relation.ReflTransGen (childRel t) b x) :
    Relation.ReflTransGen (childRel t) a b ∨ Relation.ReflTransGen (childRel t) b a := by
  have key : ∀ {x : Node}, Relation.ReflTransGen (childRel t) b x →
      Relation.ReflTransGen (childRel t) a x →
      Relation.ReflTransGen (childRel t) a b ∨ Relation.ReflTransGen (childRel t) b a := by
    intro x hbx
    induction hbx with
    | refl => exact fun hab => Or.inl hab
    | tail hby hyx ih =>
      intro hax
      rcases Relation.ReflTransGen.cases_tail hax with heq | ⟨z, haz, hzx⟩
      · subst heq
        exact Or.inr (Relation.ReflTransGen.tail (by assumption) hyx)
      · rw [childRel_functional h hzx hyx] at haz
        exact ih haz
  exact key hb ha

theorem parent_of_descendant {t : Tree} (h : WF t) {n x p : Node}
    (hd : Descendant t n x) (hp : t.parents.lookup x = some p) :
    p = n ∨ Descendant t n p := by
  rcases (Relation.TransGen.tail'_iff).mp hd with ⟨q, hq, hqx⟩
  have hqp : p = q := Option.some_inj.mp (hp.symm.trans ((childRel_iff_lookup h).mp hqx))
  subst hqp
  rcases (Relation.reflTransGen_iff_eq_or_transGen.mp hq) with heq | htg
  · exact Or.inl heq
  · exact Or.inr htg

theorem sibling_subtrees_disjoint {t : Tree} (h : WF t) {n c1 c2 x : Node}
    (h1 : childRel t n c1) (h2 : childRel t n c2) (hne : c1 ≠ c2)
    (hx1 : Relation.ReflTransGen (childRel t) c1 x)
    (hx2 : Relation.ReflTransGen (childRel t) c2 x) : False := by
  obtain ⟨D, _hD0, hDs⟩ := h.acyclic
  have hd1 : D c1 = D n + 1 := childRel_depth h (fun {a b} => hDs) h1
  have hd2 : D c2 = D n + 1 := childRel_depth h (fun {a b} => hDs) h2
  rcases chain_comparable h hx1 hx2 with hc | hc
  · rcases Relation.reflTransGen_iff_eq_or_transGen.mp hc with heq | htg
    · exact hne heq.symm
    · have := tg_depth_lt h (fun {a b} => hDs) htg
      omega
  · rcases Relation.reflTransGen_iff_eq_or_transGen.mp hc with heq | htg
    · exact hne heq
    · have := tg_depth_lt h (fun {a b} => hDs) htg
      omega

end SMCITE

-- ## The descendant traversal: termination fuel and characterization

namespace SMCITE

namespace Tree

@[simp]
theorem setList_empty : setList (∅ : Finset Node) = [] := rfl

theorem mem_childList {t : Tree} {n x : Node} : x ∈ t.childList n ↔ childRel t n x :=
  mem_setList

theorem childList_nodup (t : Tree) (n : Node) : (t.childList n).Nodup :=
  setList_nodup _

theorem childList_subset_childVals (t : Tree) {c c' : Node} (hc : c' ∈ t.childList c) :
    c' ∈ childVals t := by
  have hmem : c' ∈ t.childrenOf c := mem_childList.mp hc
  cases hl : t.children.lookup c with
  | none => simp [childrenOf, hl] at hmem
  | some s =>
    have hk : c ∈ t.children.keys :=
      Finmap.mem_keys.mpr (Finmap.lookup_isSome.mp (by rw [hl]; rfl))
    exact Finset.mem_sup.mpr ⟨c, hk, hmem⟩

@[simp]
theorem collect_list_nil (t : Tree) (rec : Node → Finset Node → Finset Node) (d : Finset Node) :
    collect_list t rec [] d = d := rfl

theorem collect_list_cons (t : Tree) (rec : Node → Finset Node → Finset Node) (c : Node)
    (l : List Node) (d : Finset Node) :
    collect_list t rec (c :: l) d =
      if c ∈ d then collect_list t rec l d else collect_list t rec l (rec c (insert c d)) := rfl

@[simp]
theorem collect_descendants_zero (t : Tree) (node : Node) (d : Finset Node) :
    collect_descendants t 0 node d = d := rfl

theorem collect_descendants_succ (t : Tree) (fuel : Nat) (node : Node) (d : Finset Node) :
    collect_descendants t (fuel + 1) node d =
      collect_list t (collect_descendants t fuel) (t.childList node) d := rfl

theorem collect_list_mono {t : Tree} {rec : Node → Finset Node → Finset Node}
    (hrec : ∀ c d, d ⊆ rec c d) :
    ∀ (l : List Node) (d : Finset Node), d ⊆ collect_list t rec l d := by
  intro l
  induction l with
  | nil => intro d; exact Finset.Subset.refl d
  | cons c rest ih =>
    intro d
    rw [collect_list_cons]
    by_cases hc : c ∈ d
    · rw [if_pos hc]; exact ih d
    · rw [if_neg hc]
      exact ((Finset.subset_insert c d).trans (hrec c (insert c d))).trans (ih _)

theorem collect_descendants_mono (t : Tree) :
    ∀ (fuel : Nat) (c : Node) (d : Finset Node), d ⊆ collect_descendants t fuel c d := by
  intro fuel
  induction fuel with
  | zero => intro c d; exact Finset.Subset.refl d
  | succ f ih =>
    intro c d
    rw [collect_descendants_succ]
    exact collect_list_mono (fun c' d' => ih c' d') _ d

theorem collect_list_sound {t : Tree} {rec : Node → Finset Node → Finset Node}
    (hrec : ∀ {c d x}, x ∈ rec c d → x ∈ d ∨ Descendant t c x) :
    ∀ (l : List Node) (d : Finset Node) (x : Node),
      x ∈ collect_list t rec l d → x ∈ d ∨ ∃ c ∈ l, x = c ∨ Descendant t c x := by
  intro l
  induction l with
  | nil => intro d x hx; exact Or.inl hx
  | cons c rest ih =>
    intro d x hx
    rw [collect_list_cons] at hx
    by_cases hc : c ∈ d
    · rw [if_pos hc] at hx
      rcases ih d x hx with hd | ⟨c', hc', hx'⟩
      · exact Or.inl hd
      · exact Or.inr ⟨c', by simp [hc'], hx'⟩
    · rw [if_neg hc] at hx
      rcases ih _ x hx with hd | ⟨c', hc', hx'⟩
      · rcases hrec hd with hins | hdesc
        · rcases Finset.mem_insert.mp hins with heq | hd2
          · exact Or.inr ⟨c, by simp, Or.inl heq⟩
          · exact Or.inl hd2
        · exact Or.inr ⟨c, by simp, Or.inr hdesc⟩
      · exact Or.inr ⟨c', by simp [hc'], hx'⟩

theorem collect_descendants_sound (t : Tree) :
    ∀ (fuel : Nat) (c : Node) (d : Finset Node) (x : Node),
      x ∈ collect_descendants t fuel c d → x ∈ d ∨ Descendant t c x := by
  intro fuel
  induction fuel with
  | zero => intro c d x hx; exact Or.inl hx
  | succ f ih =>
    intro c d x hx
    rw [collect_descendants_succ] at hx
    rcases collect_list_sound (fun {c' d' x'} h => ih c' d' x' h) _ d x hx with
      hd | ⟨c', hc', heq | hdesc⟩
    · exact Or.inl hd
    · subst heq
      exact Or.inr (Relation.TransGen.single (mem_childList.mp hc'))
    · exact Or.inr (Relation.TransGen.head (mem_childList.mp hc') hdesc)

theorem collect_list_fuel_irrel (t : Tree) :
    ∀ (m : Nat) (l : List Node) (d : Finset Node) (a b : Nat),
      (childVals t \ d).card ≤ m →
      (∀ c ∈ l, c ∈ childVals t) →
      (childVals t \ d).card ≤ a → (childVals t \ d).card ≤ b →
      collect_list t (collect_descendants t a) l d
        = collect_list t (collect_descendants t b) l d := by
  intro m
  induction m with
  | zero =>
    intro l
    induction l with
    | nil => intro d a b _ _ _ _; rfl
    | cons c rest ih =>
      intro d a b hm hl ha hb
      have hcd : c ∈ d := by
        by_contra hc
        have hmem : c ∈ childVals t \ d := Finset.mem_sdiff.mpr ⟨hl c (by simp), hc⟩
        have := Finset.card_pos.mpr ⟨c, hmem⟩
        omega
      rw [collect_list_cons, collect_list_cons, if_pos hcd, if_pos hcd]
      exact ih d a b hm (fun c' hc' => hl c' (by simp [hc'])) ha hb
  | succ m ihm =>
    intro l
    induction l with
    | nil => intro d a b _ _ _ _; rfl
    | cons c rest ihl =>
      intro d a b hm hl ha hb
      by_cases hcd : c ∈ d
      · rw [collect_list_cons, collect_list_cons, if_pos hcd, if_pos hcd]
        exact ihl d a b hm (fun c' hc' => hl c' (by simp [hc'])) ha hb
      · have hcv : c ∈ childVals t := hl c (by simp)
        have hsd : c ∈ childVals t \ d := Finset.mem_sdiff.mpr ⟨hcv, hcd⟩
        have hpos : 1 ≤ (childVals t \ d).card := Finset.card_pos.mpr ⟨c, hsd⟩
        obtain ⟨a', rfl⟩ : ∃ a', a = a' + 1 := ⟨a - 1, by omega⟩
        obtain ⟨b', rfl⟩ : ∃ b', b = b' + 1 := ⟨b - 1, by omega⟩
        have hins : childVals t \ insert c d = (childVals t \ d).erase c := by
          ext y
          simp only [Finset.mem_sdiff, Finset.mem_erase, Finset.mem_insert]
          tauto
        have hcard : (childVals t \ insert c d).card + 1 = (childVals t \ d).card := by
          rw [hins]
          exact Finset.card_erase_add_one hsd
        have hinner : collect_descendants t (a' + 1) c (insert c d)
            = collect_descendants t (b' + 1) c (insert c d) := by
          rw [collect_descendants_succ, collect_descendants_succ]
          exact ihm (t.childList c) (insert c d) a' b' (by omega)
            (fun c' hc' => childList_subset_childVals t hc') (by omega) (by omega)
        rw [collect_list_cons, collect_list_cons, if_neg hcd, if_neg hcd, hinner]
        have hmono : insert c d ⊆ collect_descendants t (b' + 1) c (insert c d) :=
          collect_descendants_mono t _ c _
        have hsub : (childVals t \ collect_descendants t (b' + 1) c (insert c d)).card
            ≤ (childVals t \ insert c d).card :=
          Finset.card_le_card (Finset.sdiff_subset_sdiff (Finset.Subset.refl _) hmono)
        exact ihm rest _ (a' + 1) (b' + 1) (by omega)
          (fun c' hc' => hl c' (by simp [hc'])) (by omega) (by omega)

/-- The result of the descendant traversal is the same for every fuel at least
`descend_fuel`: the visited-set guard makes the recursion terminate with a
stable value on every tree state, cyclic `children` maps included. -/
theorem collect_descendants_stable (t : Tree) (node : Node) :
    ∀ fuel, descend_fuel t ≤ fuel →
      collect_descendants t fuel node ∅ = t.get_descendants node := by
  intro fuel hf
  unfold descend_fuel at hf
  obtain ⟨f', rfl⟩ : ∃ f', fuel = f' + 1 := ⟨fuel - 1, by omega⟩
  unfold get_descendants descend_fuel
  rw [collect_descendants_succ, collect_descendants_succ]
  exact collect_list_fuel_irrel t (childVals t).card (t.childList node) ∅ f' (childVals t).card
    (by simp) (fun c' hc' => childList_subset_childVals t hc') (by simp; omega) (by simp)

theorem childVals_eq {t : Tree} (h : WF t) : childVals t = t.nodes.erase t.root := by
  ext x
  constructor
  · intro hx
    rcases Finset.mem_sup.mp hx with ⟨k, _hk, hxk⟩
    have hp := h.consistent.mp hxk
    have := h.parents_mem hp
    exact Finset.mem_erase.mpr ⟨this.2.2, this.1⟩
  · intro hx
    rcases Finset.mem_erase.mp hx with ⟨hxr, hxm⟩
    obtain ⟨p, hp⟩ := Option.isSome_iff_exists.mp (h.parents_total hxm hxr)
    have hmem : x ∈ t.childrenOf p := h.consistent.mpr hp
    have hk : p ∈ t.children.keys := by
      cases hl : t.children.lookup p with
      | none => simp [childrenOf, hl] at hmem
      | some s => exact Finmap.mem_keys.mpr (Finmap.lookup_isSome.mp (by rw [hl]; rfl))
    exact Finset.mem_sup.mpr ⟨p, hk, hmem⟩

theorem collect_list_exact {t : Tree} (h : WF t) {D : Node → Nat} (hD0 : D t.root = 0)
    (hDs : ∀ {n p : Node}, t.parents.lookup n = some p → D n = D p + 1) :
    ∀ (fuel : Nat) (l : List Node) (d : Finset Node),
      (∀ c ∈ l, c ∈ t.nodes) →
      (∀ c ∈ l, t.nodes.card ≤ fuel + D c) →
      List.Pairwise (fun c c' => ∀ x, Relation.ReflTransGen (childRel t) c x →
        Relation.ReflTransGen (childRel t) c' x → False) l →
      (∀ c ∈ l, ∀ x, Relation.ReflTransGen (childRel t) c x → x ∉ d) →
      ∀ x, x ∈ collect_list t (collect_descendants t fuel) l d ↔
        x ∈ d ∨ ∃ c ∈ l, Relation.ReflTransGen (childRel t) c x := by
  intro fuel
  induction fuel with
  | zero =>
    intro l
    cases l with
    | nil => intro d _ _ _ _ x; simp
    | cons c rest =>
      intro d hmem hfuel _ _ x
      exfalso
      have h1 := hfuel c (by simp)
      have h2 := depth_lt_card h hD0 (fun {a b} => hDs) (hmem c (by simp))
      omega
  | succ f ihf =>
    intro l
    induction l with
    | nil => intro d _ _ _ _ x; simp
    | cons c rest ihl =>
      intro d hmem hfuel hpw hd x
      have hcmem : c ∈ t.nodes := hmem c (by simp)
      have hcd : c ∉ d := hd c (by simp) c Relation.ReflTransGen.refl
      have hpw1 := (List.pairwise_cons.mp hpw).1
      have hpwrest := (List.pairwise_cons.mp hpw).2
      rw [collect_list_cons, if_neg hcd]
      have hinner : ∀ y, y ∈ collect_descendants t (f + 1) c (insert c d) ↔
          y ∈ insert c d ∨ ∃ c' ∈ t.childList c, Relation.ReflTransGen (childRel t) c' y := by
        intro y
        rw [collect_descendants_succ]
        refine ihf (t.childList c) (insert c d) ?_ ?_ ?_ ?_ y
        · intro c' hc'
          exact (childRel_mem h (mem_childList.mp hc')).2
        · intro c' hc'
          have hdc : D c' = D c + 1 := childRel_depth h (fun {a b} => hDs) (mem_childList.mp hc')
          have := hfuel c (by simp)
          omega
        · have hnodup : (t.childList c).Pairwise (· ≠ ·) := childList_nodup t c
          refine hnodup.imp_of_mem ?_
          intro c1 c2 h1 h2 hne x h1' h2'
          exact sibling_subtrees_disjoint h (mem_childList.mp h1) (mem_childList.mp h2) hne h1' h2'
        · intro c' hc' y hy hymem
          have hcy : Descendant t c y :=
            Relation.TransGen.head' (mem_childList.mp hc') hy
          rcases Finset.mem_insert.mp hymem with heq | hyd
          · exact descendant_irrefl h c (heq ▸ hcy)
          · exact hd c (by simp) y hcy.to_reflTransGen hyd
      have hrest := ihl (collect_descendants t (f + 1) c (insert c d))
        (fun c' hc' => hmem c' (by simp [hc']))
        (fun c' hc' => hfuel c' (by simp [hc']))
        hpwrest
        (by
          intro c' hc' y hy hymem
          rcases (hinner y).mp hymem with hins | ⟨c'', hc'', hy''⟩
          · rcases Finset.mem_insert.mp hins with heq | hyd
            · exact hpw1 c' hc' y (by rw [heq]) hy
            · exact hd c' (by simp [hc']) y hy hyd
          · have hcy : Relation.ReflTransGen (childRel t) c y :=
              (Relation.TransGen.head' (mem_childList.mp hc'') hy'').to_reflTransGen
            exact hpw1 c' hc' y hcy hy)
        x
      rw [hrest]
      constructor
      · rintro (hx | ⟨c', hc', hx'⟩)
        · rcases (hinner x).mp hx with hins | ⟨c'', hc'', hx''⟩
          · rcases Finset.mem_insert.mp hins with heq | hxd
            · exact Or.inr ⟨c, by simp, by rw [heq]⟩
            · exact Or.inl hxd
          · exact Or.inr ⟨c, by simp,
              (Relation.TransGen.head' (mem_childList.mp hc'') hx'').to_reflTransGen⟩
        · exact Or.inr ⟨c', by simp [hc'], hx'⟩
      · rintro (hx | ⟨c', hc', hx'⟩)
        · exact Or.inl ((collect_descendants_mono t _ c _)
            (Finset.mem_insert.mpr (Or.inr hx)))
        · rcases List.mem_cons.mp hc' with heq | hrestmem
          · rw [heq] at hx'
            rcases Relation.ReflTransGen.cases_head hx' with heq2 | ⟨c'', hcc'', hcx''⟩
            · exact Or.inl ((collect_descendants_mono t _ c _)
                (Finset.mem_insert.mpr (Or.inl heq2.symm)))
            · exact Or.inl ((hinner x).mpr
                (Or.inr ⟨c'', mem_childList.mpr hcc'', hcx''⟩))
          · exact Or.inr ⟨c', hrestmem, hx'⟩

/-- On a well-formed tree, `get_descendants node` is exactly the set of strict
descendants of `node`. -/
theorem get_descendants_iff {t : Tree} (h : WF t) (node x : Node) :
    x ∈ t.get_descendants node ↔ Descendant t node x := by
  by_cases hn : node ∈ t.nodes
  · obtain ⟨D, hD0, hDs⟩ := h.acyclic
    have hroot := h.root_mem
    have hcardv : (childVals t).card + 1 = t.nodes.card := by
      rw [childVals_eq h]
      exact Finset.card_erase_add_one hroot
    unfold get_descendants descend_fuel
    rw [collect_descendants_succ]
    rw [collect_list_exact h hD0 (fun {a b} => hDs) (childVals t).card (t.childList node) ∅
      (fun c hc => (childRel_mem h (mem_childList.mp hc)).2)
      (fun c hc => by
        have hdc : D c = D node + 1 := childRel_depth h (fun {a b} => hDs) (mem_childList.mp hc)
        omega)
      (by
        refine (childList_nodup t node).imp_of_mem ?_
        intro c1 c2 h1 h2 hne x h1' h2'
        exact sibling_subtrees_disjoint h (mem_childList.mp h1) (mem_childList.mp h2) hne h1' h2')
      (fun c _ x _ hx => absurd hx (Finset.not_mem_empty x))
      x]
    simp only [Finset.not_mem_empty, false_or]
    constructor
    · rintro ⟨c, hc, hcx⟩
      exact Relation.TransGen.head' (mem_childList.mp hc) hcx
    · intro hx
      rcases (Relation.TransGen.head'_iff).mp hx with ⟨c, hc, hcx⟩
      exact ⟨c, mem_childList.mpr hc, hcx⟩
  · have hnone : t.children.lookup node = none := by
      cases hl : t.children.lookup node with
      | none => rfl
      | some s => exact absurd (h.entries_mem hl) hn
    have hempty : t.childList node = [] := by
      simp [childList, childrenOf, hnone]
    constructor
    · intro hx
      unfold get_descendants descend_fuel at hx
      rw [collect_descendants_succ, hempty] at hx
      simp at hx
    · intro hx
      rcases (Relation.TransGen.head'_iff).mp hx with ⟨c, hc, _⟩
      rw [childRel, childrenOf, hnone] at hc
      simp at hc

end Tree

end SMCITE

-- ## Well-formedness of new trees and preservation by add_node

namespace SMCITE

namespace Tree

theorem new_WF (root : Node) : WF (Tree.new root) := by
  refine ⟨?_, ?_, ?_, ?_, ?_, ?_, ?_⟩
  · simp [Tree.new]
  · intro n p hl
    rw [Tree.new] at hl
    simp [Finmap.lookup_empty] at hl
  · intro n hn hr
    rw [Tree.new] at hn
    simp at hn
    exact absurd hn hr
  · intro p c
    rw [Tree.new]
    simp [childrenOf, Finmap.lookup_empty]
  · intro p s hl
    rw [Tree.new] at hl
    simp [Finmap.lookup_empty] at hl
  · intro p s hl
    rw [Tree.new] at hl
    simp [Finmap.lookup_empty] at hl
  · exact ⟨fun _ => 0, rfl, fun {n p} hl => by
      rw [Tree.new] at hl
      simp [Finmap.lookup_empty] at hl⟩

theorem add_node_ok_state {t : Tree} {p c : Node} (hp : p ∈ t.nodes) (hc : c ∉ t.nodes) :
    t.add_node p c = (.ok (), t.raw_add_node p c) := by
  unfold add_node
  rw [if_neg (by simpa using hp), if_neg (by simpa using hc)]

theorem add_node_error_state {t : Tree} {p c : Node} {e : TreeError}
    (h : (t.add_node p c).1 = .error e) : (t.add_node p c).2 = t := by
  by_cases h1 : p ∉ t.nodes
  · unfold add_node
    rw [if_pos h1]
  · by_cases h2 : c ∈ t.nodes
    · unfold add_node
      rw [if_neg h1, if_pos h2]
    · rw [add_node_ok_state (not_not.mp h1) h2] at h
      cases h

theorem add_node_ok_iff {t : Tree} {p c : Node} :
    (t.add_node p c).1 = .ok () ↔ p ∈ t.nodes ∧ c ∉ t.nodes := by
  constructor
  · intro h
    by_cases h1 : p ∉ t.nodes
    · unfold add_node at h
      rw [if_pos h1] at h
      cases h
    · by_cases h2 : c ∈ t.nodes
      · unfold add_node at h
        rw [if_neg h1, if_pos h2] at h
        cases h
      · exact ⟨not_not.mp h1, h2⟩
  · rintro ⟨hp, hc⟩
    rw [add_node_ok_state hp hc]

theorem raw_add_node_WF {t : Tree} (h : WF t) {p c : Node} (hp : p ∈ t.nodes)
    (hc : c ∉ t.nodes) : WF (t.raw_add_node p c) := by
  have hcroot : c ≠ t.root := fun hcr => hc (hcr ▸ h.root_mem)
  refine ⟨?_, ?_, ?_, ?_, ?_, ?_, ?_⟩
  · simp [h.root_mem, Finset.mem_insert_of_mem]
  · intro n q hl
    rw [parents_lookup_raw_add_node] at hl
    by_cases hn : n = c
    · rw [if_pos hn] at hl
      cases hl
      refine ⟨by simp [hn], by simp [hp], ?_⟩
      rw [hn]
      exact hcroot
    · rw [if_neg hn] at hl
      have := h.parents_mem hl
      exact ⟨by simp [this.1], by simp [this.2.1], this.2.2⟩
  · intro n hn hr
    rw [parents_lookup_raw_add_node]
    by_cases hnc : n = c
    · rw [if_pos hnc]; rfl
    · rw [if_neg hnc]
      rcases Finset.mem_insert.mp hn with heq | hmem
      · exact absurd heq hnc
      · exact h.parents_total hmem hr
  · intro q c'
    constructor
    · intro hmem
      rw [childrenOf_raw_add_node] at hmem
      rw [parents_lookup_raw_add_node]
      by_cases hq : q = p
      · subst hq
        rw [if_pos rfl] at hmem
        rcases Finset.mem_insert.mp hmem with heq | hmem2
        · rw [if_pos heq]
        · have hl := h.consistent.mp hmem2
          have hne : c' ≠ c := fun heq2 => hc (heq2 ▸ (h.parents_mem hl).1)
          rw [if_neg hne]
          exact hl
      · rw [if_neg hq] at hmem
        have hl := h.consistent.mp hmem
        have hne : c' ≠ c := fun heq2 => hc (heq2 ▸ (h.parents_mem hl).1)
        rw [if_neg hne]
        exact hl
    · intro hl
      rw [parents_lookup_raw_add_node] at hl
      rw [childrenOf_raw_add_node]
      by_cases hc' : c' = c
      · rw [if_pos hc'] at hl
        cases hl
        rw [if_pos rfl]
        exact Finset.mem_insert.mpr (Or.inl hc')
      · rw [if_neg hc'] at hl
        have hmem := h.consistent.mpr hl
        by_cases hq : q = p
        · subst hq
          rw [if_pos rfl]
          exact Finset.mem_insert_of_mem hmem
        · rw [if_neg hq]
          exact hmem
  · intro q s hl
    rw [children_lookup_raw_add_node] at hl
    by_cases hq : q = p
    · rw [if_pos hq] at hl
      cases hl
      exact ⟨c, by simp⟩
    · rw [if_neg hq] at hl
      exact h.entries_nonempty hl
  · intro q s hl
    rw [children_lookup_raw_add_node] at hl
    by_cases hq : q = p
    · rw [if_pos hq] at hl
      simp [hq, hp]
    · rw [if_neg hq] at hl
      simp [h.entries_mem hl]
  · obtain ⟨D, hD0, hDs⟩ := h.acyclic
    refine ⟨fun n => if n = c then D p + 1 else D n, ?_, ?_⟩
    · simp only [root_raw_add_node]
      rw [if_neg (fun heq => hcroot heq.symm), hD0]
    · intro n q hl
      rw [parents_lookup_raw_add_node] at hl
      by_cases hn : n = c
      · rw [if_pos hn] at hl
        cases hl
        have hqc : p ≠ c := fun heq => hc (heq ▸ hp)
        show (if n = c then D p + 1 else D n) = (if p = c then D p + 1 else D p) + 1
        rw [if_pos hn, if_neg hqc]
      · rw [if_neg hn] at hl
        have hq : q ≠ c := fun heq => hc (heq ▸ (h.parents_mem hl).2.1)
        show (if n = c then D p + 1 else D n) = (if q = c then D p + 1 else D q) + 1
        rw [if_neg hn, if_neg hq]
        exact hDs hl

theorem add_node_WF {t : Tree} (h : WF t) {p c : Node}
    (hok : (t.add_node p c).1 = .ok ()) : WF (t.add_node p c).2 := by
  obtain ⟨hp, hc⟩ := add_node_ok_iff.mp hok
  rw [add_node_ok_state hp hc]
  exact raw_add_node_WF h hp hc

end Tree

end SMCITE

-- ## prune_and_reattach: branch structure, characterization, preservation

namespace SMCITE

namespace Tree

theorem prune_notfound {t : Tree} {n np : Node} (h : n ∉ t.nodes ∨ np ∉ t.nodes) :
    t.prune_and_reattach n np = (.error .NodeNotFound, t) := by
  unfold prune_and_reattach
  rw [if_pos h]

theorem prune_self {t : Tree} {n np : Node} (hn : n ∈ t.nodes) (hnp : np ∈ t.nodes)
    (heq : n = np) : t.prune_and_reattach n np = (.error .NodeAlreadyExists, t) := by
  unfold prune_and_reattach
  rw [if_neg (by simp [hn, hnp]), if_pos heq]

theorem prune_cycle {t : Tree} {n np : Node} (hn : n ∈ t.nodes) (hnp : np ∈ t.nodes)
    (hne : n ≠ np) (hdesc : np ∈ t.get_descendants n) :
    t.prune_and_reattach n np = (.error .TopologyError, t) := by
  unfold prune_and_reattach
  rw [if_neg (by simp [hn, hnp]), if_neg hne, if_pos hdesc]

/-- Every error exit of `prune_and_reattach` happens before any map is touched. -/
theorem prune_error_state {t : Tree} {n np : Node} {e : TreeError}
    (h : (t.prune_and_reattach n np).1 = .error e) : (t.prune_and_reattach n np).2 = t := by
  by_cases h1 : n ∉ t.nodes ∨ np ∉ t.nodes
  · rw [prune_notfound h1]
  · push_neg at h1
    by_cases h2 : n = np
    · rw [prune_self h1.1 h1.2 h2]
    · by_cases h3 : np ∈ t.get_descendants n
      · rw [prune_cycle h1.1 h1.2 h2 h3]
      · exfalso
        unfold prune_and_reattach at h
        rw [if_neg (by simp [h1.1, h1.2]), if_neg h2, if_neg h3] at h
        cases h

theorem prune_ok_iff {t : Tree} {n np : Node} :
    (t.prune_and_reattach n np).1 = .ok () ↔
      n ∈ t.nodes ∧ np ∈ t.nodes ∧ n ≠ np ∧ np ∉ t.get_descendants n := by
  constructor
  · intro h
    by_cases h1 : n ∉ t.nodes ∨ np ∉ t.nodes
    · rw [prune_notfound h1] at h; cases h
    · push_neg at h1
      by_cases h2 : n = np
      · rw [prune_self h1.1 h1.2 h2] at h; cases h
      · by_cases h3 : np ∈ t.get_descendants n
        · rw [prune_cycle h1.1 h1.2 h2 h3] at h; cases h
        · exact ⟨h1.1, h1.2, h2, h3⟩
  · rintro ⟨hn, hnp, hne, hdesc⟩
    unfold prune_and_reattach
    rw [if_neg (by simp [hn, hnp]), if_neg hne, if_neg hdesc]

/-- On a well-formed tree, a successful `prune_and_reattach` does exactly the
documented surgery: `node`'s parent pointer moves to `new_parent`, `node`
leaves its old parent's child set (the entry dropped when it empties) and
enters `new_parent`'s; everything else is untouched. -/
theorem prune_ok_spec {t : Tree} (h : WF t) {n np op : Node}
    (hn : n ∈ t.nodes) (hnp : np ∈ t.nodes) (hne : n ≠ np)
    (hdesc : np ∉ t.get_descendants n) (hop : t.parents.lookup n = some op) :
    (t.prune_and_reattach n np).1 = .ok () ∧
    (t.prune_and_reattach n np).2.root = t.root ∧
    (t.prune_and_reattach n np).2.nodes = t.nodes ∧
    (∀ x, (t.prune_and_reattach n np).2.parents.lookup x =
        if x = n then some np else t.parents.lookup x) ∧
    (∀ x, (t.prune_and_reattach n np).2.children.lookup x =
        if x = np then some (insert n ((t.childrenOf np).erase n))
        else if x = op then
          (if (t.childrenOf op).erase n = ∅ then none else some ((t.childrenOf op).erase n))
        else t.children.lookup x) := by
  have hself : n ∈ t.childrenOf op := h.consistent.mpr hop
  have hs : t.children.lookup op = some (t.childrenOf op) := by
    cases hl : t.children.lookup op with
    | none => rw [childrenOf, hl] at hself; simp at hself
    | some s => rw [childrenOf, hl]; rfl
  have hnmem : op ≠ np → n ∉ t.childrenOf np := by
    intro hopnp hmem
    have hx := h.consistent.mp hmem
    rw [hop] at hx
    exact hopnp (Option.some_inj.mp hx)
  by_cases he : (t.childrenOf op).erase n = ∅
  · have hstep : t.prune_and_reattach n np =
        (.ok (), Tree.raw_add_node { t with children := t.children.erase op } np n) := by
      unfold prune_and_reattach
      rw [if_neg (by simp [hn, hnp]), if_neg hne, if_neg hdesc, hop]
      simp only [Option.getD_some, hs, he, ite_true]
    rw [hstep]
    refine ⟨rfl, rfl, by simp [Finset.insert_eq_self.mpr hn], ?_, ?_⟩
    · intro x
      rw [parents_lookup_raw_add_node]
    · intro x
      rw [children_lookup_raw_add_node]
      simp only [childrenOf] at he ⊢
      by_cases hxnp : x = np
      · rw [if_pos hxnp, if_pos hxnp]
        by_cases hopnp : op = np
        · rw [← hopnp, Finmap.lookup_erase, hs]
          have he2 : (t.childrenOf op).erase n = ∅ := by rw [childrenOf]; exact he
          simp [he2]
        · rw [Finmap.lookup_erase_ne (show np ≠ op from fun heq => hopnp heq.symm)]
          have hnm := hnmem hopnp
          rw [childrenOf] at hnm
          rw [Finset.erase_eq_of_not_mem hnm]
      · rw [if_neg hxnp, if_neg hxnp]
        by_cases hxop : x = op
        · rw [if_pos hxop, if_pos he, hxop, Finmap.lookup_erase]
        · rw [if_neg hxop, Finmap.lookup_erase_ne (show x ≠ op from fun heq => hxop heq)]
  · have hstep : t.prune_and_reattach n np =
        (.ok (), Tree.raw_add_node
          { t with children := t.children.insert op ((t.childrenOf op).erase n) } np n) := by
      unfold prune_and_reattach
      rw [if_neg (by simp [hn, hnp]), if_neg hne, if_neg hdesc, hop]
      simp only [Option.getD_some, hs, he, ite_false]
    rw [hstep]
    refine ⟨rfl, rfl, by simp [Finset.insert_eq_self.mpr hn], ?_, ?_⟩
    · intro x
      rw [parents_lookup_raw_add_node]
    · intro x
      rw [children_lookup_raw_add_node]
      simp only [childrenOf] at he ⊢
      by_cases hxnp : x = np
      · rw [if_pos hxnp, if_pos hxnp]
        by_cases hopnp : op = np
        · rw [← hopnp, Finmap.lookup_insert]
          rfl
        · rw [Finmap.lookup_insert_of_ne _ (show np ≠ op from fun heq => hopnp heq.symm)]
          have hnm := hnmem hopnp
          rw [childrenOf] at hnm
          rw [Finset.erase_eq_of_not_mem hnm]
      · rw [if_neg hxnp, if_neg hxnp]
        by_cases hxop : x = op
        · rw [if_pos hxop, if_neg he, hxop, Finmap.lookup_insert]
        · rw [if_neg hxop, Finmap.lookup_insert_of_ne _ (show x ≠ op from fun heq => hxop heq)]

end Tree

end SMCITE

-- ## prune_and_reattach: well-formedness preservation

namespace SMCITE

namespace Tree

/-- The root cannot be pruned on a well-formed tree: every other node is its
descendant, so the descendant check alone rejects it with `TopologyError`. -/
theorem prune_root_rejected {t : Tree} (h : WF t) {x : Node} (hx : x ∈ t.nodes)
    (hxr : x ≠ t.root) : t.prune_and_reattach t.root x = (.error .TopologyError, t) :=
  prune_cycle h.root_mem hx (fun heq => hxr heq.symm)
    ((get_descendants_iff h _ _).mpr (root_reaches h hx hxr))

theorem prune_node_ne_root {t : Tree} (h : WF t) {n np : Node} (hnp : np ∈ t.nodes)
    (hne : n ≠ np) (hdesc : np ∉ t.get_descendants n) : n ≠ t.root := by
  intro heq
  apply hdesc
  rw [get_descendants_iff h]
  subst heq
  exact root_reaches h hnp (fun hh => hne hh.symm)

theorem prune_WF {t : Tree} (h : WF t) {n np : Node}
    (hok : (t.prune_and_reattach n np).1 = .ok ()) : WF (t.prune_and_reattach n np).2 := by
  obtain ⟨hn, hnp, hne, hdesc⟩ := prune_ok_iff.mp hok
  have hnroot : n ≠ t.root := prune_node_ne_root h hnp hne hdesc
  obtain ⟨op, hop⟩ := Option.isSome_iff_exists.mp (h.parents_total hn hnroot)
  obtain ⟨_hok2, hroot, hnodes, hpar, hchild⟩ := prune_ok_spec h hn hnp hne hdesc hop
  have hopmem : op ∈ t.nodes := (h.parents_mem hop).2.1
  have hchildOf : ∀ q, (t.prune_and_reattach n np).2.childrenOf q =
      if q = np then insert n ((t.childrenOf np).erase n)
      else if q = op then (t.childrenOf op).erase n
      else t.childrenOf q := by
    intro q
    rw [childrenOf, hchild q]
    by_cases hq1 : q = np
    · rw [if_pos hq1, if_pos hq1]
      rfl
    · rw [if_neg hq1, if_neg hq1]
      by_cases hq2 : q = op
      · rw [if_pos hq2, if_pos hq2]
        by_cases he : (t.childrenOf op).erase n = ∅
        · rw [if_pos he, he]
          rfl
        · rw [if_neg he]
          rfl
      · rw [if_neg hq2, if_neg hq2]
        rfl
  refine ⟨?_, ?_, ?_, ?_, ?_, ?_, ?_⟩
  · rw [hroot, hnodes]
    exact h.root_mem
  · intro x q hl
    rw [hpar x] at hl
    rw [hroot, hnodes]
    by_cases hxn : x = n
    · rw [if_pos hxn] at hl
      cases hl
      exact ⟨hxn ▸ hn, hnp, hxn ▸ hnroot⟩
    · rw [if_neg hxn] at hl
      exact h.parents_mem hl
  · intro x hx hxr
    rw [hnodes] at hx
    rw [hroot] at hxr
    rw [hpar x]
    by_cases hxn : x = n
    · rw [if_pos hxn]
      rfl
    · rw [if_neg hxn]
      exact h.parents_total hx hxr
  · intro q c
    rw [hchildOf q, hpar c]
    by_cases hcn : c = n
    · rw [if_pos hcn]
      by_cases hq1 : q = np
      · rw [if_pos hq1]
        simp [hcn, hq1]
      · rw [if_neg hq1]
        constructor
        · intro hmem
          exfalso
          by_cases hq2 : q = op
          · rw [if_pos hq2] at hmem
            rw [hcn] at hmem
            exact (Finset.not_mem_erase n _) hmem
          · rw [if_neg hq2] at hmem
            rw [hcn] at hmem
            have := h.consistent.mp hmem
            rw [hop] at this
            exact hq2 (Option.some_inj.mp this).symm
        · intro hl
          exact absurd (Option.some_inj.mp hl).symm hq1
    · rw [if_neg hcn]
      by_cases hq1 : q = np
      · rw [if_pos hq1]
        rw [Finset.mem_insert]
        constructor
        · rintro (heq | hmem)
          · exact absurd heq hcn
          · rw [hq1]
            exact h.consistent.mp (Finset.mem_of_mem_erase hmem)
        · intro hl
          refine Or.inr (Finset.mem_erase.mpr ⟨hcn, ?_⟩)
          rw [← hq1]
          exact h.consistent.mpr hl
      · rw [if_neg hq1]
        by_cases hq2 : q = op
        · rw [if_pos hq2]
          constructor
          · intro hmem
            rw [hq2]
            exact h.consistent.mp (Finset.mem_of_mem_erase hmem)
          · intro hl
            refine Finset.mem_erase.mpr ⟨hcn, ?_⟩
            rw [← hq2]
            exact h.consistent.mpr hl
        · rw [if_neg hq2]
          exact h.consistent
  · intro q s hl
    rw [hchild q] at hl
    by_cases hq1 : q = np
    · rw [if_pos hq1] at hl
      cases hl
      exact ⟨n, Finset.mem_insert_self n _⟩
    · rw [if_neg hq1] at hl
      by_cases hq2 : q = op
      · rw [if_pos hq2] at hl
        by_cases he : (t.childrenOf op).erase n = ∅
        · rw [if_pos he] at hl
          cases hl
        · rw [if_neg he] at hl
          cases hl
          exact Finset.nonempty_iff_ne_empty.mpr he
      · rw [if_neg hq2] at hl
        exact h.entries_nonempty hl
  · intro q s hl
    rw [hnodes]
    rw [hchild q] at hl
    by_cases hq1 : q = np
    · rw [hq1]
      exact hnp
    · rw [if_neg hq1] at hl
      by_cases hq2 : q = op
      · rw [hq2]
        exact hopmem
      · rw [if_neg hq2] at hl
        exact h.entries_mem hl
  · obtain ⟨D, hD0, hDs⟩ := h.acyclic
    have hmemS : ∀ {y : Node}, y ∈ insert n (t.get_descendants n) ↔ y = n ∨ Descendant t n y := by
      intro y
      rw [Finset.mem_insert, get_descendants_iff h]
    refine ⟨fun x => if x ∈ insert n (t.get_descendants n)
      then D np + 1 + (D x - D n) else D x, ?_, ?_⟩
    · rw [hroot]
      show (if t.root ∈ insert n (t.get_descendants n)
        then D np + 1 + (D t.root - D n) else D t.root) = 0
      rw [if_neg (fun hmem => ?_), hD0]
      rcases hmemS.mp hmem with heq | hd
      · exact hnroot heq.symm
      · exact root_not_descendant h hd
    · intro x q hl
      show (if x ∈ insert n (t.get_descendants n) then D np + 1 + (D x - D n) else D x) =
        (if q ∈ insert n (t.get_descendants n) then D np + 1 + (D q - D n) else D q) + 1
      rw [hpar x] at hl
      by_cases hxn : x = n
      · rw [if_pos hxn] at hl
        cases hl
        have hnS : x ∈ insert n (t.get_descendants n) := hmemS.mpr (Or.inl hxn)
        have hnpS : np ∉ insert n (t.get_descendants n) := by
          intro hmem
          rcases hmemS.mp hmem with heq | hd
          · exact hne heq.symm
          · exact hdesc ((get_descendants_iff h _ _).mpr hd)
        rw [if_pos hnS, if_neg hnpS]
        have hDeq : D x = D n := by rw [hxn]
        omega
      · rw [if_neg hxn] at hl
        have hDx := hDs hl
        by_cases hxS : x ∈ insert n (t.get_descendants n)
        · have hdx : Descendant t n x := by
            rcases hmemS.mp hxS with heq | hd
            · exact absurd heq hxn
            · exact hd
          have hDnx : D n < D x := tg_depth_lt h (fun {a b} => hDs) hdx
          rcases parent_of_descendant h hdx hl with heq | hdq
          · have hqS : q ∈ insert n (t.get_descendants n) := hmemS.mpr (Or.inl heq)
            rw [if_pos hxS, if_pos hqS, heq]
            rw [heq] at hDx
            omega
          · have hqS : q ∈ insert n (t.get_descendants n) := hmemS.mpr (Or.inr hdq)
            have hDnq : D n < D q := tg_depth_lt h (fun {a b} => hDs) hdq
            rw [if_pos hxS, if_pos hqS]
            omega
        · have hqS : q ∉ insert n (t.get_descendants n) := by
            intro hmem
            apply hxS
            have hcx : childRel t q x := (childRel_iff_lookup h).mpr hl
            rcases hmemS.mp hmem with heq | hd
            · exact hmemS.mpr (Or.inr (Relation.TransGen.single (heq ▸ hcx)))
            · exact hmemS.mpr (Or.inr (Relation.TransGen.tail hd hcx))
          rw [if_neg hxS, if_neg hqS]
          exact hDx

end Tree

end SMCITE

-- ## The label transposition and swap_labels branch selection

namespace SMCITE

@[simp]
theorem swapFn_left (i j : Node) : swapFn i j i = j := by
  unfold swapFn
  simp

@[simp]
theorem swapFn_right (i j : Node) : swapFn i j j = i := by
  unfold swapFn
  by_cases h : j = i
  · simp [h]
  · simp [h]

theorem swapFn_other {i j n : Node} (hni : n ≠ i) (hnj : n ≠ j) : swapFn i j n = n := by
  unfold swapFn
  simp [hni, hnj]

theorem swapFn_comm (i j n : Node) : swapFn i j n = swapFn j i n := by
  unfold swapFn
  by_cases h1 : n = i
  · by_cases h2 : n = j
    · rw [if_pos h1, if_pos h2, ← h2]
      exact h1
    · rw [if_pos h1, if_neg h2, if_pos h1]
  · by_cases h2 : n = j
    · rw [if_neg h1, if_pos h2, if_pos h2]
    · rw [if_neg h1, if_neg h2, if_neg h2, if_neg h1]

@[simp]
theorem swapFn_invol (i j n : Node) : swapFn i j (swapFn i j n) = n := by
  by_cases h1 : n = i
  · rw [h1, swapFn_left, swapFn_right]
  · by_cases h2 : n = j
    · rw [h2, swapFn_right, swapFn_left]
    · rw [swapFn_other h1 h2, swapFn_other h1 h2]

theorem swapFn_injective (i j : Node) : Function.Injective (swapFn i j) := by
  intro a b hab
  have := congrArg (swapFn i j) hab
  rwa [swapFn_invol, swapFn_invol] at this

namespace Tree

theorem no_self_parent {t : Tree} (h : WF t) (n : Node) : t.parents.lookup n ≠ some n := by
  intro hl
  obtain ⟨D, _hD0, hDs⟩ := h.acyclic
  have := hDs hl
  omega

theorem children_lookup_of_mem {t : Tree} {p c : Node} (hc : c ∈ t.childrenOf p) :
    t.children.lookup p = some (t.childrenOf p) := by
  cases hl : t.children.lookup p with
  | none => rw [childrenOf, hl] at hc; simp at hc
  | some s => rw [childrenOf, hl]; rfl

theorem setList_toFinset (s : Finset Node) : (setList s).toFinset = s := by
  ext x
  rw [List.mem_toFinset, mem_setList]

theorem setList_eq_nil_iff {s : Finset Node} : setList s = [] ↔ s = ∅ := by
  constructor
  · intro h
    ext x
    simp only [Finset.not_mem_empty, iff_false]
    intro hx
    have := mem_setList.mpr hx
    rw [h] at this
    simp at this
  · intro h
    rw [h]
    rfl

theorem filter_setList_toFinset (s : Finset Node) (c : Node) :
    ((setList s).filter (· ≠ c)).toFinset = s.erase c := by
  ext x
  rw [List.mem_toFinset, List.mem_filter, mem_setList, Finset.mem_erase]
  simp [and_comm]

/-- On a well-formed tree the `image` of a child set under the transposition of
a node and its parent replaces the node by the parent. -/
theorem image_swapFn_mem_not_mem {a b : Node} {s : Finset Node} (ha : a ∈ s) (hb : b ∉ s) :
    s.image (swapFn a b) = insert b (s.erase a) := by
  ext y
  simp only [Finset.mem_image, Finset.mem_insert, Finset.mem_erase]
  constructor
  · rintro ⟨z, hz, rfl⟩
    by_cases hza : z = a
    · subst hza
      simp
    · by_cases hzb : z = b
      · exact absurd (hzb ▸ hz) hb
      · rw [swapFn_other hza hzb]
        exact Or.inr ⟨hza, hz⟩
  · rintro (rfl | ⟨hya, hy⟩)
    · exact ⟨a, ha, by simp⟩
    · refine ⟨y, hy, ?_⟩
      by_cases hyb : y = b
      · exact absurd (hyb ▸ hy) hb
      · exact swapFn_other hya hyb

theorem image_swapFn_not_mem_not_mem {a b : Node} {s : Finset Node} (ha : a ∉ s) (hb : b ∉ s) :
    s.image (swapFn a b) = s := by
  ext y
  simp only [Finset.mem_image]
  constructor
  · rintro ⟨z, hz, rfl⟩
    have hza : z ≠ a := fun heq => ha (heq ▸ hz)
    have hzb : z ≠ b := fun heq => hb (heq ▸ hz)
    rwa [swapFn_other hza hzb]
  · intro hy
    have hya : y ≠ a := fun heq => ha (heq ▸ hy)
    have hyb : y ≠ b := fun heq => hb (heq ▸ hy)
    exact ⟨y, hy, swapFn_other hya hyb⟩

theorem image_swapFn_mem_mem {a b : Node} {s : Finset Node} (ha : a ∈ s) (hb : b ∈ s) :
    s.image (swapFn a b) = s := by
  ext y
  simp only [Finset.mem_image]
  constructor
  · rintro ⟨z, hz, rfl⟩
    by_cases hza : z = a
    · subst hza; simpa using hb
    · by_cases hzb : z = b
      · subst hzb; simpa using ha
      · rwa [swapFn_other hza hzb]
  · intro hy
    by_cases hya : y = a
    · exact ⟨b, hb, by simp [hya]⟩
    · by_cases hyb : y = b
      · exact ⟨a, ha, by simp [hyb]⟩
      · exact ⟨y, hy, swapFn_other hya hyb⟩

end Tree

end SMCITE

-- ## swap_labels branch reduction

namespace SMCITE

namespace Tree

theorem swap_t1_eq {t : Tree} {i j : Node} :
    (if t.root = i then { t with root := j }
      else if t.root = j then { t with root := i } else t) =
      { t with root := swapFn i j t.root } := by
  by_cases h1 : t.root = i
  · rw [if_pos h1]
    have : swapFn i j t.root = j := by rw [h1, swapFn_left]
    rw [this]
  · by_cases h2 : t.root = j
    · rw [if_neg h1, if_pos h2]
      have : swapFn i j t.root = i := by rw [h2, swapFn_right]
      rw [this]
    · rw [if_neg h1, if_neg h2, swapFn_other h1 h2]

theorem swap_labels_notfound {t : Tree} {i j : Node} (h : i ∉ t.nodes ∨ j ∉ t.nodes) :
    t.swap_labels i j = (.error .NodeNotFound, t) := by
  unfold swap_labels
  rw [if_pos h]

theorem swap_labels_same {t : Tree} {i : Node} (hi : i ∈ t.nodes) :
    t.swap_labels i i = (.ok (), t) := by
  unfold swap_labels
  rw [if_neg (by simp [hi]), if_pos rfl]

theorem swap_labels_mutual {t : Tree} {i j : Node} (hi : i ∈ t.nodes) (hj : j ∈ t.nodes)
    (hij : i ≠ j) (h1 : t.parents.lookup i = some j) (h2 : t.parents.lookup j = some i) :
    t.swap_labels i j = (.error .TopologyError, { t with root := swapFn i j t.root }) := by
  unfold swap_labels
  rw [if_neg (by simp [hi, hj]), if_neg hij, swap_t1_eq]
  have hb1 : Tree.is_child { t with root := swapFn i j t.root } i j = true := by
    simp [is_child, h1]
  have hb2 : Tree.is_child { t with root := swapFn i j t.root } j i = true := by
    simp [is_child, h2]
  simp only [hb1, hb2, Bool.or_self, Bool.and_self, if_true, ite_true]

theorem swap_labels_adj_i {t : Tree} {i j : Node} (hi : i ∈ t.nodes) (hj : j ∈ t.nodes)
    (hij : i ≠ j) (h1 : t.parents.lookup i = some j) (h2 : t.parents.lookup j ≠ some i) :
    t.swap_labels i j =
      (.ok (), swap_adjacent_expr { t with root := swapFn i j t.root } i j) := by
  unfold swap_labels
  rw [if_neg (by simp [hi, hj]), if_neg hij, swap_t1_eq]
  have hb1 : Tree.is_child { t with root := swapFn i j t.root } i j = true := by
    simp [is_child, h1]
  have hb2 : Tree.is_child { t with root := swapFn i j t.root } j i = false := by
    simp [is_child, h2]
  simp only [hb1, hb2, Bool.true_or, Bool.true_and, Bool.and_false, if_true, if_false,
    ite_true, ite_false]
  rfl

theorem swap_labels_adj_j {t : Tree} {i j : Node} (hi : i ∈ t.nodes) (hj : j ∈ t.nodes)
    (hij : i ≠ j) (h1 : t.parents.lookup i ≠ some j) (h2 : t.parents.lookup j = some i) :
    t.swap_labels i j =
      (.ok (), swap_adjacent_expr { t with root := swapFn i j t.root } j i) := by
  unfold swap_labels
  rw [if_neg (by simp [hi, hj]), if_neg hij, swap_t1_eq]
  have hb1 : Tree.is_child { t with root := swapFn i j t.root } i j = false := by
    simp [is_child, h1]
  have hb2 : Tree.is_child { t with root := swapFn i j t.root } j i = true := by
    simp [is_child, h2]
  simp only [hb1, hb2, Bool.false_or, Bool.false_and, if_true, if_false, ite_true, ite_false]
  rfl

theorem swap_labels_nonadj {t : Tree} {i j : Node} (hi : i ∈ t.nodes) (hj : j ∈ t.nodes)
    (hij : i ≠ j) (h1 : t.parents.lookup i ≠ some j) (h2 : t.parents.lookup j ≠ some i) :
    t.swap_labels i j =
      (.ok (), swap_nonadjacent_expr { t with root := swapFn i j t.root } i j) := by
  unfold swap_labels
  rw [if_neg (by simp [hi, hj]), if_neg hij, swap_t1_eq]
  have hb1 : Tree.is_child { t with root := swapFn i j t.root } i j = false := by
    simp [is_child, h1]
  have hb2 : Tree.is_child { t with root := swapFn i j t.root } j i = false := by
    simp [is_child, h2]
  simp only [hb1, hb2, Bool.or_self, if_false, ite_false]
  rfl

end Tree

end SMCITE

-- ## swap_labels adjacent case: reduction and characterization

namespace SMCITE

namespace Tree

theorem option_elim_none {α β : Type} (b : β) (f : α → β) :
    (none : Option α).elim b f = b := rfl

theorem option_elim_some {α β : Type} (a : α) (b : β) (f : α → β) :
    (some a).elim b f = f a := rfl

theorem elim_add_nodes_loop (u : Tree) (p : Node) (o : Option (Finset Node)) :
    o.elim u (fun s => u.add_nodes_loop p (setList s)) =
      u.add_nodes_loop p (setList (o.getD ∅)) := by
  cases o with
  | none => rfl
  | some s => rfl

theorem swap_adj_red_some {t : Tree} (h : WF t) {child parent gp : Node}
    (hcp : t.parents.lookup child = some parent)
    (hgp : t.parents.lookup parent = some gp) (r : Node) :
    swap_adjacent_expr { t with root := r } child parent =
      ((((Tree.mk r t.nodes
          (((t.children.erase child).erase parent).insert gp ((t.childrenOf gp).erase parent))
          ((t.parents.erase child).erase parent)).raw_add_node gp child).raw_add_node
            child parent).add_nodes_loop parent (setList (t.childrenOf child))).add_nodes_loop
              child ((setList (t.childrenOf parent)).filter (· ≠ child)) := by
  have hne : child ≠ parent := fun heq => no_self_parent h child (heq ▸ hcp)
  have hgpc : gp ≠ child := by
    intro heq
    exact not_mutual_adjacent h hcp (heq ▸ hgp)
  have hgpp : gp ≠ parent := fun heq => no_self_parent h parent (heq ▸ hgp)
  have hchmem : child ∈ t.childrenOf parent := h.consistent.mpr hcp
  have hsib : t.children.lookup parent = some (t.childrenOf parent) :=
    children_lookup_of_mem hchmem
  have hca : (t.children.erase child).lookup parent = some (t.childrenOf parent) := by
    rw [Finmap.lookup_erase_ne (show parent ≠ child from hne.symm), hsib]
  have hpa : (t.parents.erase child).lookup parent = some gp := by
    rw [Finmap.lookup_erase_ne (show parent ≠ child from hne.symm), hgp]
  have hga : (((t.children.erase child).erase parent).lookup gp).getD ∅ = t.childrenOf gp := by
    rw [Finmap.lookup_erase_ne hgpp, Finmap.lookup_erase_ne hgpc]
    rfl
  unfold swap_adjacent_expr
  simp only [hca, hpa, hga, option_elim_some, Option.getD_some]
  rw [elim_add_nodes_loop, add_siblings_loop_eq]
  rfl

theorem swap_adj_red_none {t : Tree} (h : WF t) {child parent : Node}
    (hcp : t.parents.lookup child = some parent)
    (hgp : t.parents.lookup parent = none) (r : Node) :
    swap_adjacent_expr { t with root := r } child parent =
      (((Tree.mk r t.nodes
          ((t.children.erase child).erase parent)
          (t.parents.erase child)).raw_add_node
            child parent).add_nodes_loop parent (setList (t.childrenOf child))).add_nodes_loop
              child ((setList (t.childrenOf parent)).filter (· ≠ child)) := by
  have hne : child ≠ parent := fun heq => no_self_parent h child (heq ▸ hcp)
  have hchmem : child ∈ t.childrenOf parent := h.consistent.mpr hcp
  have hsib : t.children.lookup parent = some (t.childrenOf parent) :=
    children_lookup_of_mem hchmem
  have hca : (t.children.erase child).lookup parent = some (t.childrenOf parent) := by
    rw [Finmap.lookup_erase_ne (show parent ≠ child from hne.symm), hsib]
  have hpa : (t.parents.erase child).lookup parent = none := by
    rw [Finmap.lookup_erase_ne (show parent ≠ child from hne.symm), hgp]
  unfold swap_adjacent_expr
  simp only [hca, hpa, option_elim_none, Option.getD_some]
  rw [elim_add_nodes_loop, add_siblings_loop_eq]
  rfl

end Tree

end SMCITE

-- ## Adjacent-case characterization lemmas

namespace SMCITE

namespace Tree

theorem childrenOf_subset_nodes {t : Tree} (h : WF t) (q : Node) :
    t.childrenOf q ⊆ t.nodes :=
  fun _c hc => (h.parents_mem (h.consistent.mp hc)).1

theorem filter_setList_eq_nil_iff {s : Finset Node} {c : Node} :
    (setList s).filter (· ≠ c) = [] ↔ s.erase c = ∅ := by
  constructor
  · intro h
    ext y
    simp only [Finset.mem_erase, Finset.not_mem_empty, iff_false, not_and]
    intro hy1 hy2
    have hmem : y ∈ (setList s).filter (· ≠ c) :=
      List.mem_filter.mpr ⟨mem_setList.mpr hy2, by simpa using hy1⟩
    rw [h] at hmem
    simp at hmem
  · intro h
    rw [List.eq_nil_iff_forall_not_mem]
    intro y hy
    rw [List.mem_filter] at hy
    have h1 := mem_setList.mp hy.1
    have h2 : y ≠ c := by simpa using hy.2
    have hmem : y ∈ s.erase c := Finset.mem_erase.mpr ⟨h2, h1⟩
    rw [h] at hmem
    simp at hmem

theorem swap_adjacent_spec_some {t : Tree} (h : WF t) {child parent gp : Node}
    (hcp : t.parents.lookup child = some parent)
    (hgp : t.parents.lookup parent = some gp) (r : Node) :
    (swap_adjacent_expr { t with root := r } child parent).root = r ∧
    (swap_adjacent_expr { t with root := r } child parent).nodes = t.nodes ∧
    (∀ x, (swap_adjacent_expr { t with root := r } child parent).parents.lookup x =
      (t.parents.lookup (swapFn child parent x)).map (swapFn child parent)) ∧
    (∀ x, (swap_adjacent_expr { t with root := r } child parent).children.lookup x =
      (t.children.lookup (swapFn child parent x)).map (Finset.image (swapFn child parent))) := by
  have hne : child ≠ parent := fun heq => no_self_parent h child (heq ▸ hcp)
  have hgpc : gp ≠ child := fun heq => not_mutual_adjacent h hcp (heq ▸ hgp)
  have hgpp : gp ≠ parent := fun heq => no_self_parent h parent (heq ▸ hgp)
  have hcmem : child ∈ t.nodes := (h.parents_mem hcp).1
  have hpmem : parent ∈ t.nodes := (h.parents_mem hcp).2.1
  have hchmem : child ∈ t.childrenOf parent := h.consistent.mpr hcp
  have hpnc : parent ∉ t.childrenOf parent :=
    fun hmem => no_self_parent h parent (h.consistent.mp hmem)
  have hcnc : child ∉ t.childrenOf child :=
    fun hmem => no_self_parent h child (h.consistent.mp hmem)
  have hpncc : parent ∉ t.childrenOf child :=
    fun hmem => not_mutual_adjacent h hcp (h.consistent.mp hmem)
  have hgpmem : parent ∈ t.childrenOf gp := h.consistent.mpr hgp
  have hcgp : child ∉ t.childrenOf gp := by
    intro hmem
    have hx := h.consistent.mp hmem
    rw [hcp] at hx
    exact hgpp (Option.some_inj.mp hx).symm
  have hred := swap_adj_red_some h hcp hgp r
  rw [hred]
  refine ⟨?_, ?_, ?_, ?_⟩
  · simp
  · simp only [nodes_add_nodes_loop, nodes_raw_add_node]
    rw [setList_toFinset, filter_setList_toFinset]
    rw [Finset.insert_eq_self.mpr hcmem, Finset.insert_eq_self.mpr hpmem,
      Finset.union_eq_left.mpr (childrenOf_subset_nodes h child),
      Finset.union_eq_left.mpr
        ((Finset.erase_subset _ _).trans (childrenOf_subset_nodes h parent))]
  · intro x
    rw [parents_lookup_add_nodes_loop, parents_lookup_add_nodes_loop,
      parents_lookup_raw_add_node, parents_lookup_raw_add_node]
    by_cases hx1 : x = child
    · rw [hx1, swapFn_left, hgp]
      rw [if_neg (by
          intro hmem
          rw [List.mem_filter] at hmem
          simpa using hmem.2),
        if_neg (fun hmem => hcnc (mem_setList.mp hmem)),
        if_neg hne, if_pos rfl]
      simp [swapFn_other hgpc hgpp]
    · by_cases hx2 : x = parent
      · rw [hx2, swapFn_right, hcp]
        rw [if_neg (by
            intro hmem
            rw [List.mem_filter] at hmem
            exact hpnc (mem_setList.mp hmem.1)),
          if_neg (fun hmem => hpncc (mem_setList.mp hmem)),
          if_pos rfl]
        simp
      · rw [swapFn_other hx1 hx2]
        by_cases hx3 : x ∈ t.childrenOf parent
        · rw [if_pos (List.mem_filter.mpr ⟨mem_setList.mpr hx3, by simpa using hx1⟩),
            h.consistent.mp hx3]
          simp [swapFn_right]
        · by_cases hx4 : x ∈ t.childrenOf child
          · rw [if_neg (by
                intro hmem
                rw [List.mem_filter] at hmem
                exact hx3 (mem_setList.mp hmem.1)),
              if_pos (mem_setList.mpr hx4), h.consistent.mp hx4]
            simp [swapFn_left]
          · rw [if_neg (by
                intro hmem
                rw [List.mem_filter] at hmem
                exact hx3 (mem_setList.mp hmem.1)),
              if_neg (fun hmem => hx4 (mem_setList.mp hmem)),
              if_neg hx2, if_neg hx1]
            show Finmap.lookup x ((t.parents.erase child).erase parent) = _
            rw [Finmap.lookup_erase_ne hx2, Finmap.lookup_erase_ne hx1]
            cases hpx : t.parents.lookup x with
            | none => rfl
            | some q =>
              have hq1 : q ≠ child := fun heq => hx4 (h.consistent.mpr (heq ▸ hpx))
              have hq2 : q ≠ parent := fun heq => hx3 (h.consistent.mpr (heq ▸ hpx))
              simp [swapFn_other hq1 hq2]
  · intro x
    by_cases hx1 : x = child
    · rw [hx1, swapFn_left, children_lookup_of_mem hchmem]
      have hmid : ∀ u : Tree, u = (Tree.mk r t.nodes
            (((t.children.erase child).erase parent).insert gp
              ((t.childrenOf gp).erase parent))
            ((t.parents.erase child).erase parent)).raw_add_node gp child →
          u.childrenOf child = ∅ := by
        intro u hu
        rw [hu, childrenOf, children_lookup_raw_add_node,
          if_neg (show child ≠ gp from fun heq => hgpc heq.symm)]
        show (Finmap.lookup child
          (((t.children.erase child).erase parent).insert gp
            ((t.childrenOf gp).erase parent))).getD ∅ = ∅
        rw [Finmap.lookup_insert_of_ne _ (show child ≠ gp from fun heq => hgpc heq.symm),
          Finmap.lookup_erase_ne hne, Finmap.lookup_erase]
        rfl
      by_cases hL2 : (setList (t.childrenOf parent)).filter (· ≠ child) = []
      · rw [hL2, add_nodes_loop_nil, children_lookup_add_nodes_loop_ne _ _ _ _ hne,
          children_lookup_raw_add_node, if_pos rfl, hmid _ rfl]
        have he2 := filter_setList_eq_nil_iff.mp hL2
        simp [image_swapFn_mem_not_mem hchmem hpnc, he2]
      · rw [children_lookup_add_nodes_loop_self _ _ _ hL2]
        have hbase : Tree.childrenOf ((((Tree.mk r t.nodes
            (((t.children.erase child).erase parent).insert gp
              ((t.childrenOf gp).erase parent))
            ((t.parents.erase child).erase parent)).raw_add_node gp child).raw_add_node
              child parent).add_nodes_loop parent (setList (t.childrenOf child))) child
            = {parent} := by
          rw [childrenOf, children_lookup_add_nodes_loop_ne _ _ _ _ hne,
            children_lookup_raw_add_node, if_pos rfl, hmid _ rfl]
          rfl
        rw [hbase, filter_setList_toFinset]
        simp [image_swapFn_mem_not_mem hchmem hpnc, Finset.insert_eq]
    · by_cases hx2 : x = parent
      · rw [hx2, swapFn_right,
          children_lookup_add_nodes_loop_ne _ _ _ _ (show parent ≠ child from hne.symm)]
        cases hgc : t.children.lookup child with
        | none =>
          have hCh : t.childrenOf child = ∅ := by rw [childrenOf, hgc]; rfl
          rw [hCh, setList_empty, add_nodes_loop_nil, children_lookup_raw_add_node,
            if_neg (show parent ≠ child from hne.symm), children_lookup_raw_add_node,
            if_neg (show parent ≠ gp from fun heq => hgpp heq.symm)]
          show Finmap.lookup parent
            (((t.children.erase child).erase parent).insert gp
              ((t.childrenOf gp).erase parent)) = _
          rw [Finmap.lookup_insert_of_ne _ (show parent ≠ gp from fun heq => hgpp heq.symm),
            Finmap.lookup_erase]
          rfl
        | some s =>
          have hCh : t.childrenOf child = s := by rw [childrenOf, hgc]; rfl
          have hsne : s.Nonempty := h.entries_nonempty hgc
          have hL1 : setList (t.childrenOf child) ≠ [] := by
            rw [hCh]
            intro heq
            exact (Finset.nonempty_iff_ne_empty.mp hsne) (setList_eq_nil_iff.mp heq)
          rw [children_lookup_add_nodes_loop_self _ _ _ hL1]
          have hbase2 : Tree.childrenOf (((Tree.mk r t.nodes
              (((t.children.erase child).erase parent).insert gp
                ((t.childrenOf gp).erase parent))
              ((t.parents.erase child).erase parent)).raw_add_node gp child).raw_add_node
                child parent) parent = ∅ := by
            rw [childrenOf, children_lookup_raw_add_node,
              if_neg (show parent ≠ child from hne.symm), children_lookup_raw_add_node,
              if_neg (show parent ≠ gp from fun heq => hgpp heq.symm)]
            show (Finmap.lookup parent
              (((t.children.erase child).erase parent).insert gp
                ((t.childrenOf gp).erase parent))).getD ∅ = ∅
            rw [Finmap.lookup_insert_of_ne _
              (show parent ≠ gp from fun heq => hgpp heq.symm), Finmap.lookup_erase]
            rfl
          rw [hbase2, setList_toFinset, hCh]
          have hc1 : child ∉ s := by rw [← hCh]; exact hcnc
          have hc2 : parent ∉ s := by rw [← hCh]; exact hpncc
          simp [image_swapFn_not_mem_not_mem hc1 hc2]
      · by_cases hxgp : x = gp
        · rw [hxgp, swapFn_other hgpc hgpp, children_lookup_of_mem hgpmem,
            children_lookup_add_nodes_loop_ne _ _ _ _ hgpc,
            children_lookup_add_nodes_loop_ne _ _ _ _ hgpp,
            children_lookup_raw_add_node, if_neg (show gp ≠ child from hgpc),
            children_lookup_raw_add_node, if_pos rfl]
          have hT0 : Tree.childrenOf (Tree.mk r t.nodes
              (((t.children.erase child).erase parent).insert gp
                ((t.childrenOf gp).erase parent))
              ((t.parents.erase child).erase parent)) gp = (t.childrenOf gp).erase parent := by
            rw [childrenOf]
            show (Finmap.lookup gp
              (((t.children.erase child).erase parent).insert gp
                ((t.childrenOf gp).erase parent))).getD ∅ = _
            rw [Finmap.lookup_insert]
            rfl
          rw [hT0]
          simp only [Option.map_some']
          rw [Finset.image_congr (show Set.EqOn (swapFn child parent) (swapFn parent child)
              (t.childrenOf gp) from fun y _ => swapFn_comm child parent y),
            image_swapFn_mem_not_mem hgpmem hcgp]
        · rw [swapFn_other hx1 hx2,
            children_lookup_add_nodes_loop_ne _ _ _ _ hx1,
            children_lookup_add_nodes_loop_ne _ _ _ _ hx2,
            children_lookup_raw_add_node, if_neg hx1,
            children_lookup_raw_add_node, if_neg hxgp]
          show Finmap.lookup x
            (((t.children.erase child).erase parent).insert gp
              ((t.childrenOf gp).erase parent)) = _
          rw [Finmap.lookup_insert_of_ne _ hxgp,
            Finmap.lookup_erase_ne hx2, Finmap.lookup_erase_ne hx1]
          cases hlx : t.children.lookup x with
          | none => rfl
          | some s =>
            have hCh : t.childrenOf x = s := by rw [childrenOf, hlx]; rfl
            have hc1 : child ∉ s := by
              rw [← hCh]
              intro hmem
              have hp := h.consistent.mp hmem
              rw [hcp] at hp
              exact hx2 (Option.some_inj.mp hp).symm
            have hc2 : parent ∉ s := by
              rw [← hCh]
              intro hmem
              have hp := h.consistent.mp hmem
              rw [hgp] at hp
              exact hxgp (Option.some_inj.mp hp).symm
            simp [image_swapFn_not_mem_not_mem hc1 hc2]

end Tree

end SMCITE

-- ## Adjacent-case characterization: no-grandparent case

namespace SMCITE

namespace Tree

theorem swap_adjacent_spec_none {t : Tree} (h : WF t) {child parent : Node}
    (hcp : t.parents.lookup child = some parent)
    (hgp : t.parents.lookup parent = none) (r : Node) :
    (swap_adjacent_expr { t with root := r } child parent).root = r ∧
    (swap_adjacent_expr { t with root := r } child parent).nodes = t.nodes ∧
    (∀ x, (swap_adjacent_expr { t with root := r } child parent).parents.lookup x =
      (t.parents.lookup (swapFn child parent x)).map (swapFn child parent)) ∧
    (∀ x, (swap_adjacent_expr { t with root := r } child parent).children.lookup x =
      (t.children.lookup (swapFn child parent x)).map (Finset.image (swapFn child parent))) := by
  have hne : child ≠ parent := fun heq => no_self_parent h child (heq ▸ hcp)
  have hcmem : child ∈ t.nodes := (h.parents_mem hcp).1
  have hpmem : parent ∈ t.nodes := (h.parents_mem hcp).2.1
  have hchmem : child ∈ t.childrenOf parent := h.consistent.mpr hcp
  have hpnc : parent ∉ t.childrenOf parent :=
    fun hmem => no_self_parent h parent (h.consistent.mp hmem)
  have hcnc : child ∉ t.childrenOf child :=
    fun hmem => no_self_parent h child (h.consistent.mp hmem)
  have hpncc : parent ∉ t.childrenOf child :=
    fun hmem => not_mutual_adjacent h hcp (h.consistent.mp hmem)
  have hred := swap_adj_red_none h hcp hgp r
  rw [hred]
  refine ⟨?_, ?_, ?_, ?_⟩
  · simp
  · simp only [nodes_add_nodes_loop, nodes_raw_add_node]
    rw [setList_toFinset, filter_setList_toFinset]
    rw [Finset.insert_eq_self.mpr hpmem,
      Finset.union_eq_left.mpr (childrenOf_subset_nodes h child),
      Finset.union_eq_left.mpr
        ((Finset.erase_subset _ _).trans (childrenOf_subset_nodes h parent))]
  · intro x
    rw [parents_lookup_add_nodes_loop, parents_lookup_add_nodes_loop,
      parents_lookup_raw_add_node]
    by_cases hx1 : x = child
    · rw [hx1, swapFn_left, hgp]
      rw [if_neg (by
          intro hmem
          rw [List.mem_filter] at hmem
          simpa using hmem.2),
        if_neg (fun hmem => hcnc (mem_setList.mp hmem)),
        if_neg hne]
      show Finmap.lookup child (t.parents.erase child) = _
      rw [Finmap.lookup_erase]
      rfl
    · by_cases hx2 : x = parent
      · rw [hx2, swapFn_right, hcp]
        rw [if_neg (by
            intro hmem
            rw [List.mem_filter] at hmem
            exact hpnc (mem_setList.mp hmem.1)),
          if_neg (fun hmem => hpncc (mem_setList.mp hmem)),
          if_pos rfl]
        simp
      · rw [swapFn_other hx1 hx2]
        by_cases hx3 : x ∈ t.childrenOf parent
        · rw [if_pos (List.mem_filter.mpr ⟨mem_setList.mpr hx3, by simpa using hx1⟩),
            h.consistent.mp hx3]
          simp [swapFn_right]
        · by_cases hx4 : x ∈ t.childrenOf child
          · rw [if_neg (by
                intro hmem
                rw [List.mem_filter] at hmem
                exact hx3 (mem_setList.mp hmem.1)),
              if_pos (mem_setList.mpr hx4), h.consistent.mp hx4]
            simp [swapFn_left]
          · rw [if_neg (by
                intro hmem
                rw [List.mem_filter] at hmem
                exact hx3 (mem_setList.mp hmem.1)),
              if_neg (fun hmem => hx4 (mem_setList.mp hmem)),
              if_neg hx2]
            show Finmap.lookup x (t.parents.erase child) = _
            rw [Finmap.lookup_erase_ne hx1]
            cases hpx : t.parents.lookup x with
            | none => rfl
            | some q =>
              have hq1 : q ≠ child := fun heq => hx4 (h.consistent.mpr (heq ▸ hpx))
              have hq2 : q ≠ parent := fun heq => hx3 (h.consistent.mpr (heq ▸ hpx))
              simp [swapFn_other hq1 hq2]
  · intro x
    by_cases hx1 : x = child
    · rw [hx1, swapFn_left, children_lookup_of_mem hchmem]
      have hmid : Tree.childrenOf (Tree.mk r t.nodes
          ((t.children.erase child).erase parent) (t.parents.erase child)) child = ∅ := by
        rw [childrenOf]
        show (Finmap.lookup child ((t.children.erase child).erase parent)).getD ∅ = ∅
        rw [Finmap.lookup_erase_ne hne, Finmap.lookup_erase]
        rfl
      by_cases hL2 : (setList (t.childrenOf parent)).filter (· ≠ child) = []
      · rw [hL2, add_nodes_loop_nil, children_lookup_add_nodes_loop_ne _ _ _ _ hne,
          children_lookup_raw_add_node, if_pos rfl, hmid]
        have he2 := filter_setList_eq_nil_iff.mp hL2
        simp [image_swapFn_mem_not_mem hchmem hpnc, he2]
      · rw [children_lookup_add_nodes_loop_self _ _ _ hL2]
        have hbase : Tree.childrenOf (((Tree.mk r t.nodes
            ((t.children.erase child).erase parent)
            (t.parents.erase child)).raw_add_node child parent).add_nodes_loop
              parent (setList (t.childrenOf child))) child = {parent} := by
          rw [childrenOf, children_lookup_add_nodes_loop_ne _ _ _ _ hne,
            children_lookup_raw_add_node, if_pos rfl, hmid]
          rfl
        rw [hbase, filter_setList_toFinset]
        simp [image_swapFn_mem_not_mem hchmem hpnc, Finset.insert_eq]
    · by_cases hx2 : x = parent
      · rw [hx2, swapFn_right,
          children_lookup_add_nodes_loop_ne _ _ _ _ (show parent ≠ child from hne.symm)]
        cases hgc : t.children.lookup child with
        | none =>
          have hCh : t.childrenOf child = ∅ := by rw [childrenOf, hgc]; rfl
          rw [hCh, setList_empty, add_nodes_loop_nil, children_lookup_raw_add_node,
            if_neg (show parent ≠ child from hne.symm)]
          show Finmap.lookup parent ((t.children.erase child).erase parent) = _
          rw [Finmap.lookup_erase]
          rfl
        | some s =>
          have hCh : t.childrenOf child = s := by rw [childrenOf, hgc]; rfl
          have hsne : s.Nonempty := h.entries_nonempty hgc
          have hL1 : setList (t.childrenOf child) ≠ [] := by
            rw [hCh]
            intro heq
            exact (Finset.nonempty_iff_ne_empty.mp hsne) (setList_eq_nil_iff.mp heq)
          rw [children_lookup_add_nodes_loop_self _ _ _ hL1]
          have hbase2 : Tree.childrenOf ((Tree.mk r t.nodes
              ((t.children.erase child).erase parent)
              (t.parents.erase child)).raw_add_node child parent) parent = ∅ := by
            rw [childrenOf, children_lookup_raw_add_node,
              if_neg (show parent ≠ child from hne.symm)]
            show (Finmap.lookup parent ((t.children.erase child).erase parent)).getD ∅ = ∅
            rw [Finmap.lookup_erase]
            rfl
          rw [hbase2, setList_toFinset, hCh]
          have hc1 : child ∉ s := by rw [← hCh]; exact hcnc
          have hc2 : parent ∉ s := by rw [← hCh]; exact hpncc
          simp [image_swapFn_not_mem_not_mem hc1 hc2]
      · rw [swapFn_other hx1 hx2,
          children_lookup_add_nodes_loop_ne _ _ _ _ hx1,
          children_lookup_add_nodes_loop_ne _ _ _ _ hx2,
          children_lookup_raw_add_node, if_neg hx1]
        show Finmap.lookup x ((t.children.erase child).erase parent) = _
        rw [Finmap.lookup_erase_ne hx2, Finmap.lookup_erase_ne hx1]
        cases hlx : t.children.lookup x with
        | none => rfl
        | some s =>
          have hCh : t.childrenOf x = s := by rw [childrenOf, hlx]; rfl
          have hc1 : child ∉ s := by
            rw [← hCh]
            intro hmem
            have hp := h.consistent.mp hmem
            rw [hcp] at hp
            exact hx2 (Option.some_inj.mp hp).symm
          have hc2 : parent ∉ s := by
            rw [← hCh]
            intro hmem
            have hp := h.consistent.mp hmem
            rw [hgp] at hp
            cases hp
          simp [image_swapFn_not_mem_not_mem hc1 hc2]

end Tree

end SMCITE

-- ## swap_labels non-adjacent case: reduction and intermediate state

namespace SMCITE

namespace Tree

theorem swap_nonadj_TF_root (t : Tree) (i j r : Node) :
    (((Tree.mk r t.nodes ((t.children.erase i).erase j)
        ((t.parents.erase i).erase j)).add_nodes_loop j
          (setList (t.childrenOf i))).add_nodes_loop i (setList (t.childrenOf j))).root = r := by
  simp

theorem swap_nonadj_TF_nodes {t : Tree} (h : WF t) (i j r : Node) :
    (((Tree.mk r t.nodes ((t.children.erase i).erase j)
        ((t.parents.erase i).erase j)).add_nodes_loop j
          (setList (t.childrenOf i))).add_nodes_loop i (setList (t.childrenOf j))).nodes
      = t.nodes := by
  simp only [nodes_add_nodes_loop]
  rw [setList_toFinset, setList_toFinset,
    Finset.union_eq_left.mpr (childrenOf_subset_nodes h i),
    Finset.union_eq_left.mpr (childrenOf_subset_nodes h j)]

theorem swap_nonadj_TF_parents (t : Tree) (i j r x : Node) :
    (((Tree.mk r t.nodes ((t.children.erase i).erase j)
        ((t.parents.erase i).erase j)).add_nodes_loop j
          (setList (t.childrenOf i))).add_nodes_loop i (setList (t.childrenOf j))).parents.lookup x
      = if x ∈ t.childrenOf j then some i
        else if x ∈ t.childrenOf i then some j
        else Finmap.lookup x ((t.parents.erase i).erase j) := by
  rw [parents_lookup_add_nodes_loop, parents_lookup_add_nodes_loop]
  by_cases h1 : x ∈ t.childrenOf j
  · rw [if_pos (mem_setList.mpr h1), if_pos h1]
  · rw [if_neg (fun hmem => h1 (mem_setList.mp hmem)), if_neg h1]
    by_cases h2 : x ∈ t.childrenOf i
    · rw [if_pos (mem_setList.mpr h2), if_pos h2]
    · rw [if_neg (fun hmem => h2 (mem_setList.mp hmem)), if_neg h2]

theorem swap_nonadj_TF_children {t : Tree} (h : WF t) {i j : Node} (hij : i ≠ j) (r x : Node) :
    (((Tree.mk r t.nodes ((t.children.erase i).erase j)
        ((t.parents.erase i).erase j)).add_nodes_loop j
          (setList (t.childrenOf i))).add_nodes_loop i (setList (t.childrenOf j))).children.lookup x
      = if x = i then t.children.lookup j
        else if x = j then t.children.lookup i
        else Finmap.lookup x ((t.children.erase i).erase j) := by
  by_cases hx1 : x = i
  · rw [if_pos hx1, hx1]
    cases hgc : t.children.lookup j with
    | none =>
      have hCh : t.childrenOf j = ∅ := by rw [childrenOf, hgc]; rfl
      rw [hCh, setList_empty, add_nodes_loop_nil,
        children_lookup_add_nodes_loop_ne _ _ _ _ hij]
      show Finmap.lookup i ((t.children.erase i).erase j) = none
      rw [Finmap.lookup_erase_ne hij, Finmap.lookup_erase]
    | some s =>
      have hCh : t.childrenOf j = s := by rw [childrenOf, hgc]; rfl
      have hL : setList (t.childrenOf j) ≠ [] := by
        rw [hCh]
        intro heq
        exact (Finset.nonempty_iff_ne_empty.mp (h.entries_nonempty hgc))
          (setList_eq_nil_iff.mp heq)
      rw [children_lookup_add_nodes_loop_self _ _ _ hL]
      have hbase : Tree.childrenOf ((Tree.mk r t.nodes ((t.children.erase i).erase j)
          ((t.parents.erase i).erase j)).add_nodes_loop j (setList (t.childrenOf i))) i
          = ∅ := by
        rw [childrenOf, children_lookup_add_nodes_loop_ne _ _ _ _ hij]
        show (Finmap.lookup i ((t.children.erase i).erase j)).getD ∅ = ∅
        rw [Finmap.lookup_erase_ne hij, Finmap.lookup_erase]
        rfl
      rw [hbase, setList_toFinset, hCh]
      simp
  · rw [if_neg hx1, children_lookup_add_nodes_loop_ne _ _ _ _ hx1]
    by_cases hx2 : x = j
    · rw [if_pos hx2, hx2]
      cases hgc : t.children.lookup i with
      | none =>
        have hCh : t.childrenOf i = ∅ := by rw [childrenOf, hgc]; rfl
        rw [hCh, setList_empty, add_nodes_loop_nil]
        show Finmap.lookup j ((t.children.erase i).erase j) = none
        rw [Finmap.lookup_erase]
      | some s =>
        have hCh : t.childrenOf i = s := by rw [childrenOf, hgc]; rfl
        have hL : setList (t.childrenOf i) ≠ [] := by
          rw [hCh]
          intro heq
          exact (Finset.nonempty_iff_ne_empty.mp (h.entries_nonempty hgc))
            (setList_eq_nil_iff.mp heq)
        rw [children_lookup_add_nodes_loop_self _ _ _ hL]
        have hbase : Tree.childrenOf (Tree.mk r t.nodes ((t.children.erase i).erase j)
            ((t.parents.erase i).erase j)) j = ∅ := by
          rw [childrenOf]
          show (Finmap.lookup j ((t.children.erase i).erase j)).getD ∅ = ∅
          rw [Finmap.lookup_erase]
          rfl
        rw [hbase, setList_toFinset, hCh]
        simp
    · rw [if_neg hx2, children_lookup_add_nodes_loop_ne _ _ _ _ hx2]

theorem swap_nonadj_red_common {t : Tree} {i j p : Node} (hij : i ≠ j)
    (hpi : t.parents.lookup i = some p) (hpj : t.parents.lookup j = some p) (r : Node) :
    swap_nonadjacent_expr { t with root := r } i j =
      { (((Tree.mk r t.nodes ((t.children.erase i).erase j)
          ((t.parents.erase i).erase j)).add_nodes_loop j
            (setList (t.childrenOf i))).add_nodes_loop i (setList (t.childrenOf j))) with
        parents := ((((Tree.mk r t.nodes ((t.children.erase i).erase j)
          ((t.parents.erase i).erase j)).add_nodes_loop j
            (setList (t.childrenOf i))).add_nodes_loop i
              (setList (t.childrenOf j))).parents.insert i p).insert j p } := by
  unfold swap_nonadjacent_expr
  simp only [Finmap.lookup_erase_ne (show (j : Node) ≠ i from fun heq => hij heq.symm),
    elim_add_nodes_loop, hpi, hpj, ite_true, if_pos]
  rfl

theorem swap_nonadj_red_noncommon {t : Tree} {i j : Node} (hij : i ≠ j)
    (hcase : ∀ p1 p2, t.parents.lookup i = some p1 → t.parents.lookup j = some p2 → p1 ≠ p2)
    (r : Node) :
    swap_nonadjacent_expr { t with root := r } i j =
      reparent_after_swap
        (reparent_after_swap
          (((Tree.mk r t.nodes ((t.children.erase i).erase j)
            ((t.parents.erase i).erase j)).add_nodes_loop j
              (setList (t.childrenOf i))).add_nodes_loop i (setList (t.childrenOf j)))
          i j (t.parents.lookup i))
        j i (t.parents.lookup j) := by
  unfold swap_nonadjacent_expr
  simp only [Finmap.lookup_erase_ne (show (j : Node) ≠ i from fun heq => hij heq.symm),
    elim_add_nodes_loop]
  cases hpi : t.parents.lookup i with
  | none => rfl
  | some p1 =>
    cases hpj : t.parents.lookup j with
    | none => rfl
    | some p2 =>
      simp only [if_neg (hcase p1 p2 hpi hpj)]
      rfl

end Tree

end SMCITE

-- ## reparent_after_swap lookups and the non-adjacent characterization

namespace SMCITE

namespace Tree

theorem parents_insert_lookup (m : ParentMap) (a b x : Node) :
    (m.insert a b).lookup x = if x = a then some b else m.lookup x := by
  by_cases h : x = a
  · rw [if_pos h, h, Finmap.lookup_insert]
  · rw [if_neg h, Finmap.lookup_insert_of_ne _ h]

theorem children_insert_lookup (m : ChildMap) (a : Node) (b : Finset Node) (x : Node) :
    (m.insert a b).lookup x = if x = a then some b else m.lookup x := by
  by_cases h : x = a
  · rw [if_pos h, h, Finmap.lookup_insert]
  · rw [if_neg h, Finmap.lookup_insert_of_ne _ h]

theorem reparent_root (u : Tree) (old new : Node) (po : Option Node) :
    (reparent_after_swap u old new po).root = u.root := by
  cases po with
  | none => rfl
  | some p =>
    cases hl : u.children.lookup p with
    | none => simp [reparent_after_swap, hl]
    | some cs => simp [reparent_after_swap, hl]

theorem reparent_nodes (u : Tree) (old new : Node) (po : Option Node) :
    (reparent_after_swap u old new po).nodes = u.nodes := by
  cases po with
  | none => rfl
  | some p =>
    cases hl : u.children.lookup p with
    | none => simp [reparent_after_swap, hl]
    | some cs => simp [reparent_after_swap, hl]

theorem reparent_parents_lookup (u : Tree) (old new : Node) (po : Option Node) (x : Node) :
    (reparent_after_swap u old new po).parents.lookup x =
      (match po with
       | none => u.parents.lookup x
       | some p => if x = new then some p else u.parents.lookup x) := by
  cases po with
  | none => rfl
  | some p =>
    cases hl : u.children.lookup p with
    | none => simp [reparent_after_swap, hl, parents_insert_lookup]
    | some cs => simp [reparent_after_swap, hl, parents_insert_lookup]

theorem reparent_children_lookup (u : Tree) (old new : Node) (po : Option Node) (x : Node) :
    (reparent_after_swap u old new po).children.lookup x =
      (match po with
       | none => u.children.lookup x
       | some p =>
         match u.children.lookup p with
         | none => u.children.lookup x
         | some cs => if x = p then some (insert new (cs.erase old))
             else u.children.lookup x) := by
  cases po with
  | none => rfl
  | some p =>
    cases hl : u.children.lookup p with
    | none => simp [reparent_after_swap, hl]
    | some cs => simp [reparent_after_swap, hl, children_insert_lookup]

end Tree

end SMCITE

-- ## Non-adjacent swap characterization

namespace SMCITE

namespace Tree

theorem reparent_none (u : Tree) (old new : Node) :
    reparent_after_swap u old new none = u := rfl

theorem reparent_parents_some (u : Tree) (old new p x : Node) :
    (reparent_after_swap u old new (some p)).parents.lookup x =
      if x = new then some p else u.parents.lookup x := by
  cases hl : u.children.lookup p with
  | none => simp [reparent_after_swap, hl, parents_insert_lookup]
  | some cs => simp [reparent_after_swap, hl, parents_insert_lookup]

theorem reparent_children_some_entry {u : Tree} {p : Node} {cs : Finset Node}
    (old new : Node) (hcl : u.children.lookup p = some cs) (x : Node) :
    (reparent_after_swap u old new (some p)).children.lookup x =
      if x = p then some (insert new (cs.erase old)) else u.children.lookup x := by
  simp [reparent_after_swap, hcl, children_insert_lookup]

theorem withParents_root (u : Tree) (m : ParentMap) :
    ({ u with parents := m } : Tree).root = u.root := rfl

theorem withParents_nodes (u : Tree) (m : ParentMap) :
    ({ u with parents := m } : Tree).nodes = u.nodes := rfl

theorem withParents_children (u : Tree) (m : ParentMap) :
    ({ u with parents := m } : Tree).children = u.children := rfl

theorem withParents_parents (u : Tree) (m : ParentMap) :
    ({ u with parents := m } : Tree).parents = m := rfl

/-- The non-adjacent branch of `swap_labels` relabels the tree along the
transposition `swapFn i j`: every `parents` and `children` entry moves to the
swapped key with swapped contents. -/
theorem swap_nonadjacent_spec {t : Tree} (h : WF t) {i j : Node} (hij : i ≠ j)
    (hadj1 : t.parents.lookup i ≠ some j) (hadj2 : t.parents.lookup j ≠ some i) (r : Node) :
    (swap_nonadjacent_expr { t with root := r } i j).root = r ∧
    (swap_nonadjacent_expr { t with root := r } i j).nodes = t.nodes ∧
    (∀ x, (swap_nonadjacent_expr { t with root := r } i j).parents.lookup x =
      (t.parents.lookup (swapFn i j x)).map (swapFn i j)) ∧
    (∀ x, (swap_nonadjacent_expr { t with root := r } i j).children.lookup x =
      (t.children.lookup (swapFn i j x)).map (Finset.image (swapFn i j))) := by
  have hii : i ∉ t.childrenOf i := fun hmem => no_self_parent h i (h.consistent.mp hmem)
  have hjj : j ∉ t.childrenOf j := fun hmem => no_self_parent h j (h.consistent.mp hmem)
  have hinj : i ∉ t.childrenOf j := fun hmem => hadj1 (h.consistent.mp hmem)
  have hjni : j ∉ t.childrenOf i := fun hmem => hadj2 (h.consistent.mp hmem)
  have himage_comm : ∀ s : Finset Node,
      Finset.image (swapFn i j) s = Finset.image (swapFn j i) s :=
    fun s => Finset.image_congr (fun x _ => swapFn_comm i j x)
  have hparents_else : ∀ x, x ≠ i → x ≠ j → x ∉ t.childrenOf j → x ∉ t.childrenOf i →
      Finmap.lookup x ((t.parents.erase i).erase j) =
        (t.parents.lookup (swapFn i j x)).map (swapFn i j) := by
    intro x hx1 hx2 hx3 hx4
    rw [Finmap.lookup_erase_ne hx2, Finmap.lookup_erase_ne hx1, swapFn_other hx1 hx2]
    cases hpx : t.parents.lookup x with
    | none => rfl
    | some q =>
      have hq1 : q ≠ i := fun heq => hx4 (h.consistent.mpr (heq ▸ hpx))
      have hq2 : q ≠ j := fun heq => hx3 (h.consistent.mpr (heq ▸ hpx))
      simp [swapFn_other hq1 hq2]
  have hTFpar : ∀ x, x ≠ i → x ≠ j →
      (if x ∈ t.childrenOf j then some i
       else if x ∈ t.childrenOf i then some j
       else Finmap.lookup x ((t.parents.erase i).erase j)) =
        (t.parents.lookup (swapFn i j x)).map (swapFn i j) := by
    intro x hx1 hx2
    by_cases hx3 : x ∈ t.childrenOf j
    · rw [if_pos hx3, swapFn_other hx1 hx2, h.consistent.mp hx3]
      simp [swapFn_right]
    · rw [if_neg hx3]
      by_cases hx4 : x ∈ t.childrenOf i
      · rw [if_pos hx4, swapFn_other hx1 hx2, h.consistent.mp hx4]
        simp [swapFn_left]
      · rw [if_neg hx4]
        exact hparents_else x hx1 hx2 hx3 hx4
  have hTFpar_i : (if i ∈ t.childrenOf j then some i
       else if i ∈ t.childrenOf i then some j
       else Finmap.lookup i ((t.parents.erase i).erase j)) = (none : Option Node) := by
    rw [if_neg hinj, if_neg hii, Finmap.lookup_erase_ne hij, Finmap.lookup_erase]
  have hTFpar_j : (if j ∈ t.childrenOf j then some i
       else if j ∈ t.childrenOf i then some j
       else Finmap.lookup j ((t.parents.erase i).erase j)) = (none : Option Node) := by
    rw [if_neg hjj, if_neg hjni, Finmap.lookup_erase]
  have hchildren_ij : ∀ x, x = i ∨ x = j →
      (t.children.lookup (swapFn i j x)).map (Finset.image (swapFn i j)) =
        (if x = i then t.children.lookup j else t.children.lookup i) := by
    intro x hx
    cases hx with
    | inl hxi =>
      rw [if_pos hxi, hxi, swapFn_left]
      cases hlj : t.children.lookup j with
      | none => rfl
      | some s =>
        have hCh : t.childrenOf j = s := by rw [childrenOf, hlj]; rfl
        have h1 : i ∉ s := by rw [← hCh]; exact hinj
        have h2 : j ∉ s := by rw [← hCh]; exact hjj
        simp [image_swapFn_not_mem_not_mem h1 h2]
    | inr hxj =>
      rw [if_neg (fun heq => hij (heq.symm.trans hxj)), hxj, swapFn_right]
      cases hli : t.children.lookup i with
      | none => rfl
      | some s =>
        have hCh : t.childrenOf i = s := by rw [childrenOf, hli]; rfl
        have h1 : i ∉ s := by rw [← hCh]; exact hii
        have h2 : j ∉ s := by rw [← hCh]; exact hjni
        simp [image_swapFn_not_mem_not_mem h1 h2]
  have hTFch : ∀ x, x ≠ i → x ≠ j → t.parents.lookup i ≠ some x → t.parents.lookup j ≠ some x →
      (if x = i then t.children.lookup j
       else if x = j then t.children.lookup i
       else Finmap.lookup x ((t.children.erase i).erase j)) =
        (t.children.lookup (swapFn i j x)).map (Finset.image (swapFn i j)) := by
    intro x hx1 hx2 hpix hpjx
    rw [if_neg hx1, if_neg hx2, Finmap.lookup_erase_ne hx2, Finmap.lookup_erase_ne hx1,
      swapFn_other hx1 hx2]
    cases hlx : t.children.lookup x with
    | none => rfl
    | some s =>
      have hCh : t.childrenOf x = s := by rw [childrenOf, hlx]; rfl
      have h1 : i ∉ s := by rw [← hCh]; exact fun hm => hpix (h.consistent.mp hm)
      have h2 : j ∉ s := by rw [← hCh]; exact fun hm => hpjx (h.consistent.mp hm)
      simp [image_swapFn_not_mem_not_mem h1 h2]
  have hTFch_i : (if i = i then t.children.lookup j
       else if i = j then t.children.lookup i
       else Finmap.lookup i ((t.children.erase i).erase j)) =
        (t.children.lookup (swapFn i j i)).map (Finset.image (swapFn i j)) := by
    rw [if_pos rfl, hchildren_ij i (Or.inl rfl), if_pos rfl]
  have hTFch_j : (if j = i then t.children.lookup j
       else if j = j then t.children.lookup i
       else Finmap.lookup j ((t.children.erase i).erase j)) =
        (t.children.lookup (swapFn i j j)).map (Finset.image (swapFn i j)) := by
    rw [if_neg (fun heq => hij heq.symm), if_pos rfl, hchildren_ij j (Or.inr rfl),
      if_neg (fun heq => hij heq.symm)]
  have hTFc : ∀ p : Node, p ≠ i → p ≠ j →
      (((Tree.mk r t.nodes ((t.children.erase i).erase j)
        ((t.parents.erase i).erase j)).add_nodes_loop j
          (setList (t.childrenOf i))).add_nodes_loop i
            (setList (t.childrenOf j))).children.lookup p
      = t.children.lookup p := by
    intro p hp1 hp2
    rw [swap_nonadj_TF_children h hij, if_neg hp1, if_neg hp2,
      Finmap.lookup_erase_ne hp2, Finmap.lookup_erase_ne hp1]
  by_cases hcommon : ∃ p, t.parents.lookup i = some p ∧ t.parents.lookup j = some p
  · obtain ⟨p, hpi, hpj⟩ := hcommon
    have hpni : p ≠ i := fun heq => no_self_parent h i (heq ▸ hpi)
    have hpnj : p ≠ j := fun heq => no_self_parent h j (heq ▸ hpj)
    have hiCp : i ∈ t.childrenOf p := h.consistent.mpr hpi
    have hjCp : j ∈ t.childrenOf p := h.consistent.mpr hpj
    rw [swap_nonadj_red_common hij hpi hpj r]
    refine ⟨?_, ?_, ?_, ?_⟩
    · rw [withParents_root, swap_nonadj_TF_root]
    · rw [withParents_nodes, swap_nonadj_TF_nodes h]
    · intro x
      rw [withParents_parents, parents_insert_lookup, parents_insert_lookup,
        swap_nonadj_TF_parents]
      by_cases hx1 : x = j
      · rw [if_pos hx1, hx1, swapFn_right, hpi]
        simp [swapFn_other hpni hpnj]
      · rw [if_neg hx1]
        by_cases hx2 : x = i
        · rw [if_pos hx2, hx2, swapFn_left, hpj]
          simp [swapFn_other hpni hpnj]
        · rw [if_neg hx2]
          exact hTFpar x hx2 hx1
    · intro x
      rw [withParents_children, swap_nonadj_TF_children h hij]
      by_cases hx1 : x = i
      · rw [hx1]
        exact hTFch_i
      · by_cases hx2 : x = j
        · rw [hx2]
          exact hTFch_j
        · by_cases hxp : x = p
          · rw [if_neg hx1, if_neg hx2, Finmap.lookup_erase_ne hx2, Finmap.lookup_erase_ne hx1,
              swapFn_other hx1 hx2, hxp, children_lookup_of_mem hiCp]
            simp only [Option.map_some']
            rw [image_swapFn_mem_mem hiCp hjCp]
          · exact hTFch x hx1 hx2
              (by rw [hpi]; exact fun heq => hxp (Option.some_inj.mp heq).symm)
              (by rw [hpj]; exact fun heq => hxp (Option.some_inj.mp heq).symm)
  · have hcase : ∀ p1 p2, t.parents.lookup i = some p1 → t.parents.lookup j = some p2 →
        p1 ≠ p2 := fun p1 p2 h1 h2 heq => hcommon ⟨p1, h1, by rw [h2, heq]⟩
    rw [swap_nonadj_red_noncommon hij hcase r]
    refine ⟨?_, ?_, ?_, ?_⟩
    · rw [reparent_root, reparent_root, swap_nonadj_TF_root]
    · rw [reparent_nodes, reparent_nodes, swap_nonadj_TF_nodes h]
    · intro x
      cases hpi : t.parents.lookup i with
      | some p1 =>
        have hp1i : p1 ≠ i := fun heq => no_self_parent h i (heq ▸ hpi)
        have hp1j : p1 ≠ j := fun heq => hadj1 (heq ▸ hpi)
        cases hpj : t.parents.lookup j with
        | some p2 =>
          have hp2i : p2 ≠ i := fun heq => hadj2 (heq ▸ hpj)
          have hp2j : p2 ≠ j := fun heq => no_self_parent h j (heq ▸ hpj)
          rw [reparent_parents_some, reparent_parents_some, swap_nonadj_TF_parents]
          by_cases hx1 : x = i
          · rw [if_pos hx1, hx1, swapFn_left, hpj]
            simp [swapFn_other hp2i hp2j]
          · rw [if_neg hx1]
            by_cases hx2 : x = j
            · rw [if_pos hx2, hx2, swapFn_right, hpi]
              simp [swapFn_other hp1i hp1j]
            · rw [if_neg hx2]
              exact hTFpar x hx1 hx2
        | none =>
          rw [reparent_none, reparent_parents_some, swap_nonadj_TF_parents]
          by_cases hx2 : x = j
          · rw [if_pos hx2, hx2, swapFn_right, hpi]
            simp [swapFn_other hp1i hp1j]
          · rw [if_neg hx2]
            by_cases hx1 : x = i
            · rw [hx1, hTFpar_i, swapFn_left, hpj]; rfl
            · exact hTFpar x hx1 hx2
      | none =>
        cases hpj : t.parents.lookup j with
        | some p2 =>
          have hp2i : p2 ≠ i := fun heq => hadj2 (heq ▸ hpj)
          have hp2j : p2 ≠ j := fun heq => no_self_parent h j (heq ▸ hpj)
          rw [reparent_none, reparent_parents_some, swap_nonadj_TF_parents]
          by_cases hx1 : x = i
          · rw [if_pos hx1, hx1, swapFn_left, hpj]
            simp [swapFn_other hp2i hp2j]
          · rw [if_neg hx1]
            by_cases hx2 : x = j
            · rw [hx2, hTFpar_j, swapFn_right, hpi]; rfl
            · exact hTFpar x hx1 hx2
        | none =>
          rw [reparent_none, reparent_none, swap_nonadj_TF_parents]
          by_cases hx1 : x = i
          · rw [hx1, hTFpar_i, swapFn_left, hpj]; rfl
          · by_cases hx2 : x = j
            · rw [hx2, hTFpar_j, swapFn_right, hpi]; rfl
            · exact hTFpar x hx1 hx2
    · intro x
      cases hpi : t.parents.lookup i with
      | some p1 =>
        have hp1i : p1 ≠ i := fun heq => no_self_parent h i (heq ▸ hpi)
        have hp1j : p1 ≠ j := fun heq => hadj1 (heq ▸ hpi)
        have hiCp1 : i ∈ t.childrenOf p1 := h.consistent.mpr hpi
        have hTFp1 := (hTFc p1 hp1i hp1j).trans (children_lookup_of_mem hiCp1)
        cases hpj : t.parents.lookup j with
        | some p2 =>
          have hp2i : p2 ≠ i := fun heq => hadj2 (heq ▸ hpj)
          have hp2j : p2 ≠ j := fun heq => no_self_parent h j (heq ▸ hpj)
          have hjCp2 : j ∈ t.childrenOf p2 := h.consistent.mpr hpj
          have hp2p1 : p2 ≠ p1 := Ne.symm (hcase p1 p2 hpi hpj)
          have hinotCp2 : i ∉ t.childrenOf p2 := fun hm => by
            have hx := h.consistent.mp hm
            rw [hpi] at hx
            exact hcase p1 p2 hpi hpj (Option.some_inj.mp hx)
          have hjnotCp1 : j ∉ t.childrenOf p1 := fun hm => by
            have hx := h.consistent.mp hm
            rw [hpj] at hx
            exact hcase p1 p2 hpi hpj (Option.some_inj.mp hx).symm
          have hU1p2 := (reparent_children_some_entry i j hTFp1 p2).trans
            (by rw [if_neg hp2p1, hTFc p2 hp2i hp2j, children_lookup_of_mem hjCp2])
          rw [reparent_children_some_entry j i hU1p2 x]
          by_cases hxp2 : x = p2
          · rw [if_pos hxp2, hxp2, swapFn_other hp2i hp2j, children_lookup_of_mem hjCp2]
            simp only [Option.map_some']
            rw [himage_comm, image_swapFn_mem_not_mem hjCp2 hinotCp2]
          · rw [if_neg hxp2, reparent_children_some_entry i j hTFp1 x]
            by_cases hxp1 : x = p1
            · rw [if_pos hxp1, hxp1, swapFn_other hp1i hp1j, children_lookup_of_mem hiCp1]
              simp only [Option.map_some']
              rw [image_swapFn_mem_not_mem hiCp1 hjnotCp1]
            · rw [if_neg hxp1, swap_nonadj_TF_children h hij]
              by_cases hx1 : x = i
              · rw [hx1]
                exact hTFch_i
              · by_cases hx2 : x = j
                · rw [hx2]
                  exact hTFch_j
                · exact hTFch x hx1 hx2
                    (by rw [hpi]; exact fun heq => hxp1 (Option.some_inj.mp heq).symm)
                    (by rw [hpj]; exact fun heq => hxp2 (Option.some_inj.mp heq).symm)
        | none =>
          have hjnotCp1 : j ∉ t.childrenOf p1 := fun hm => by
            have hx := h.consistent.mp hm
            rw [hpj] at hx
            exact Option.noConfusion hx
          rw [reparent_none, reparent_children_some_entry i j hTFp1 x]
          by_cases hxp1 : x = p1
          · rw [if_pos hxp1, hxp1, swapFn_other hp1i hp1j, children_lookup_of_mem hiCp1]
            simp only [Option.map_some']
            rw [image_swapFn_mem_not_mem hiCp1 hjnotCp1]
          · rw [if_neg hxp1, swap_nonadj_TF_children h hij]
            by_cases hx1 : x = i
            · rw [hx1]
              exact hTFch_i
            · by_cases hx2 : x = j
              · rw [hx2]
                exact hTFch_j
              · exact hTFch x hx1 hx2
                  (by rw [hpi]; exact fun heq => hxp1 (Option.some_inj.mp heq).symm)
                  (by rw [hpj]; exact fun heq => Option.noConfusion heq)
      | none =>
        cases hpj : t.parents.lookup j with
        | some p2 =>
          have hp2i : p2 ≠ i := fun heq => hadj2 (heq ▸ hpj)
          have hp2j : p2 ≠ j := fun heq => no_self_parent h j (heq ▸ hpj)
          have hjCp2 : j ∈ t.childrenOf p2 := h.consistent.mpr hpj
          have hinotCp2 : i ∉ t.childrenOf p2 := fun hm => by
            have hx := h.consistent.mp hm
            rw [hpi] at hx
            exact Option.noConfusion hx
          have hTFp2 := (hTFc p2 hp2i hp2j).trans (children_lookup_of_mem hjCp2)
          rw [reparent_none, reparent_children_some_entry j i hTFp2 x]
          by_cases hxp2 : x = p2
          · rw [if_pos hxp2, hxp2, swapFn_other hp2i hp2j, children_lookup_of_mem hjCp2]
            simp only [Option.map_some']
            rw [himage_comm, image_swapFn_mem_not_mem hjCp2 hinotCp2]
          · rw [if_neg hxp2, swap_nonadj_TF_children h hij]
            by_cases hx1 : x = i
            · rw [hx1]
              exact hTFch_i
            · by_cases hx2 : x = j
              · rw [hx2]
                exact hTFch_j
              · exact hTFch x hx1 hx2
                  (by rw [hpi]; exact fun heq => Option.noConfusion heq)
                  (by rw [hpj]; exact fun heq => hxp2 (Option.some_inj.mp heq).symm)
        | none =>
          rw [reparent_none, reparent_none, swap_nonadj_TF_children h hij]
          by_cases hx1 : x = i
          · rw [hx1]
            exact hTFch_i
          · by_cases hx2 : x = j
            · rw [hx2]
              exact hTFch_j
            · exact hTFch x hx1 hx2
                (by rw [hpi]; exact fun heq => Option.noConfusion heq)
                (by rw [hpj]; exact fun heq => Option.noConfusion heq)

end Tree

end SMCITE

-- ## Full characterization of successful swap_labels, WF preservation, involution

namespace SMCITE

namespace Tree

theorem swapFn_fun_comm (i j : Node) : swapFn i j = swapFn j i :=
  funext (swapFn_comm i j)

theorem swapFn_mem {s : Finset Node} {i j : Node} (hi : i ∈ s) (hj : j ∈ s) (x : Node)
    (hx : x ∈ s) : swapFn i j x ∈ s := by
  unfold swapFn
  by_cases h1 : x = i
  · rw [if_pos h1]
    exact hj
  · rw [if_neg h1]
    by_cases h2 : x = j
    · rw [if_pos h2]
      exact hi
    · rw [if_neg h2]
      exact hx

theorem map_swapFn_eq_some_iff {i j : Node} {o : Option Node} {p : Node} :
    o.map (swapFn i j) = some p ↔ o = some (swapFn i j p) := by
  cases o with
  | none => simp
  | some q =>
    simp only [Option.map_some', Option.some_inj]
    constructor
    · intro hq
      rw [← hq, swapFn_invol]
    · intro hq
      rw [hq, swapFn_invol]

theorem image_swapFn_mem_iff {i j : Node} {s : Finset Node} {c : Node} :
    c ∈ s.image (swapFn i j) ↔ swapFn i j c ∈ s := by
  constructor
  · intro hm
    obtain ⟨y, hy, hyc⟩ := Finset.mem_image.mp hm
    rw [← hyc, swapFn_invol]
    exact hy
  · intro hm
    exact Finset.mem_image.mpr ⟨swapFn i j c, hm, swapFn_invol i j c⟩

theorem image_swapFn_invol (i j : Node) (s : Finset Node) :
    (s.image (swapFn i j)).image (swapFn i j) = s := by
  rw [Finset.image_image]
  have hcongr : s.image (swapFn i j ∘ swapFn i j) = s.image id :=
    Finset.image_congr (fun x _ => swapFn_invol i j x)
  rw [hcongr, Finset.image_id]

/-- Successful `swap_labels i j` (both labels present, distinct, not mutually
adjacent) returns `Ok` and produces exactly the tree relabeled along the
transposition `swapFn i j`. -/
theorem swap_ok_spec {t : Tree} (h : WF t) {i j : Node} (hi : i ∈ t.nodes) (hj : j ∈ t.nodes)
    (hij : i ≠ j)
    (hmut : ¬(t.parents.lookup i = some j ∧ t.parents.lookup j = some i)) :
    (t.swap_labels i j).1 = .ok () ∧
    (t.swap_labels i j).2.root = swapFn i j t.root ∧
    (t.swap_labels i j).2.nodes = t.nodes ∧
    (∀ x, (t.swap_labels i j).2.parents.lookup x =
      (t.parents.lookup (swapFn i j x)).map (swapFn i j)) ∧
    (∀ x, (t.swap_labels i j).2.children.lookup x =
      (t.children.lookup (swapFn i j x)).map (Finset.image (swapFn i j))) := by
  by_cases h1 : t.parents.lookup i = some j
  · have h2 : t.parents.lookup j ≠ some i := fun h2 => hmut ⟨h1, h2⟩
    rw [swap_labels_adj_i hi hj hij h1 h2]
    cases hgp : t.parents.lookup j with
    | some gp =>
      obtain ⟨c1, c2, c3, c4⟩ := swap_adjacent_spec_some h h1 hgp (swapFn i j t.root)
      exact ⟨rfl, c1, c2, c3, c4⟩
    | none =>
      obtain ⟨c1, c2, c3, c4⟩ := swap_adjacent_spec_none h h1 hgp (swapFn i j t.root)
      exact ⟨rfl, c1, c2, c3, c4⟩
  · by_cases h2 : t.parents.lookup j = some i
    · rw [swap_labels_adj_j hi hj hij h1 h2, swapFn_fun_comm i j]
      cases hgp : t.parents.lookup i with
      | some gp =>
        obtain ⟨c1, c2, c3, c4⟩ := swap_adjacent_spec_some h h2 hgp (swapFn j i t.root)
        exact ⟨rfl, c1, c2, c3, c4⟩
      | none =>
        obtain ⟨c1, c2, c3, c4⟩ := swap_adjacent_spec_none h h2 hgp (swapFn j i t.root)
        exact ⟨rfl, c1, c2, c3, c4⟩
    · rw [swap_labels_nonadj hi hj hij h1 h2]
      obtain ⟨c1, c2, c3, c4⟩ := swap_nonadjacent_spec h hij h1 h2 (swapFn i j t.root)
      exact ⟨rfl, c1, c2, c3, c4⟩

/-- A successful `swap_labels` preserves all tree invariants. -/
theorem swap_WF {t : Tree} (h : WF t) {i j : Node} (hi : i ∈ t.nodes) (hj : j ∈ t.nodes)
    (hij : i ≠ j)
    (hmut : ¬(t.parents.lookup i = some j ∧ t.parents.lookup j = some i)) :
    WF (t.swap_labels i j).2 := by
  obtain ⟨hok, hroot, hnodes, hpar, hch⟩ := swap_ok_spec h hi hj hij hmut
  have hparents_iff : ∀ c p : Node, (t.swap_labels i j).2.parents.lookup c = some p ↔
      t.parents.lookup (swapFn i j c) = some (swapFn i j p) := by
    intro c p
    rw [hpar c, map_swapFn_eq_some_iff]
  have hchOf : ∀ p, (t.swap_labels i j).2.childrenOf p =
      (t.childrenOf (swapFn i j p)).image (swapFn i j) := by
    intro p
    rw [childrenOf, childrenOf, hch p]
    cases t.children.lookup (swapFn i j p) with
    | none => simp
    | some s => simp
  refine ⟨?_, ?_, ?_, ?_, ?_, ?_, ?_⟩
  · rw [hroot, hnodes]
    exact swapFn_mem hi hj _ h.root_mem
  · intro n p hl
    rw [hparents_iff] at hl
    obtain ⟨hn1, hp1, hnr⟩ := h.parents_mem hl
    rw [hnodes, hroot]
    refine ⟨?_, ?_, ?_⟩
    · have hm := swapFn_mem hi hj _ hn1
      rwa [swapFn_invol] at hm
    · have hm := swapFn_mem hi hj _ hp1
      rwa [swapFn_invol] at hm
    · intro heq
      rw [heq, swapFn_invol] at hnr
      exact hnr rfl
  · intro n hn hnr
    rw [hnodes] at hn
    rw [hroot] at hnr
    have hm1 : swapFn i j n ∈ t.nodes := swapFn_mem hi hj _ hn
    have hm2 : swapFn i j n ≠ t.root := by
      intro heq
      apply hnr
      rw [← heq, swapFn_invol]
    have hsome := h.parents_total hm1 hm2
    cases hx : t.parents.lookup (swapFn i j n) with
    | none => rw [hx] at hsome; simp at hsome
    | some q => rw [hpar n, hx]; rfl
  · intro p c
    rw [hchOf p, image_swapFn_mem_iff, hparents_iff]
    exact h.consistent
  · intro p s hl
    rw [hch p] at hl
    cases hx : t.children.lookup (swapFn i j p) with
    | none => rw [hx] at hl; simp at hl
    | some s0 =>
      rw [hx, Option.map_some'] at hl
      have hs := Option.some_inj.mp hl
      rw [← hs]
      exact Finset.Nonempty.image (h.entries_nonempty hx) _
  · intro p s hl
    rw [hnodes]
    rw [hch p] at hl
    cases hx : t.children.lookup (swapFn i j p) with
    | none => rw [hx] at hl; simp at hl
    | some s0 =>
      have hmem := h.entries_mem hx
      have hm := swapFn_mem hi hj _ hmem
      rwa [swapFn_invol] at hm
  · obtain ⟨D, hD0, hDs⟩ := h.acyclic
    refine ⟨fun n => D (swapFn i j n), ?_, ?_⟩
    · show D (swapFn i j (t.swap_labels i j).2.root) = 0
      rw [hroot, swapFn_invol]
      exact hD0
    · intro n p hl
      rw [hparents_iff] at hl
      show D (swapFn i j n) = D (swapFn i j p) + 1
      exact hDs hl

/-- Applying `swap_labels i j` twice to a well-formed tree returns the tree to
its original state (both calls succeed). -/
theorem swap_swap {t : Tree} (h : WF t) {i j : Node} (hi : i ∈ t.nodes) (hj : j ∈ t.nodes)
    (hij : i ≠ j)
    (hmut : ¬(t.parents.lookup i = some j ∧ t.parents.lookup j = some i)) :
    (t.swap_labels i j).1 = .ok () ∧
    ((t.swap_labels i j).2.swap_labels i j).1 = .ok () ∧
    ((t.swap_labels i j).2.swap_labels i j).2 = t := by
  obtain ⟨hok, hroot, hnodes, hpar, hch⟩ := swap_ok_spec h hi hj hij hmut
  have hu := swap_WF h hi hj hij hmut
  have hi2 : i ∈ (t.swap_labels i j).2.nodes := by rw [hnodes]; exact hi
  have hj2 : j ∈ (t.swap_labels i j).2.nodes := by rw [hnodes]; exact hj
  have hmut2 : ¬((t.swap_labels i j).2.parents.lookup i = some j ∧
      (t.swap_labels i j).2.parents.lookup j = some i) := by
    rintro ⟨ha, hb⟩
    rw [hpar i, map_swapFn_eq_some_iff, swapFn_left, swapFn_right] at ha
    rw [hpar j, map_swapFn_eq_some_iff, swapFn_right, swapFn_left] at hb
    exact hmut ⟨hb, ha⟩
  obtain ⟨hok2, hroot2, hnodes2, hpar2, hch2⟩ := swap_ok_spec hu hi2 hj2 hij hmut2
  refine ⟨hok, hok2, tree_ext ?_ ?_ ?_ ?_⟩
  · rw [hroot2, hroot, swapFn_invol]
  · rw [hnodes2, hnodes]
  · intro x
    rw [hch2 x, hch (swapFn i j x), swapFn_invol]
    cases t.children.lookup x with
    | none => rfl
    | some s =>
      simp only [Option.map_some']
      rw [image_swapFn_invol]
  · intro x
    rw [hpar2 x, hpar (swapFn i j x), swapFn_invol]
    cases t.parents.lookup x with
    | none => rfl
    | some q =>
      simp only [Option.map_some']
      rw [swapFn_invol]

end Tree

end SMCITE

-- ## Well-formedness of every reachable tree

namespace SMCITE

namespace Tree

theorem swap_WF_of_ok {t : Tree} (h : WF t) {i j : Node}
    (hok : (t.swap_labels i j).1 = .ok ()) : WF (t.swap_labels i j).2 := by
  by_cases hi : i ∈ t.nodes
  · by_cases hj : j ∈ t.nodes
    · by_cases hij : i = j
      · rw [hij] at hok ⊢
        rw [swap_labels_same hj]
        exact h
      · by_cases hmut : t.parents.lookup i = some j ∧ t.parents.lookup j = some i
        · rw [swap_labels_mutual hi hj hij hmut.1 hmut.2] at hok
          simp at hok
        · exact swap_WF h hi hj hij hmut
    · rw [swap_labels_notfound (Or.inr hj)] at hok
      simp at hok
  · rw [swap_labels_notfound (Or.inl hi)] at hok
    simp at hok

/-- Every tree reachable from `Tree::new` by successful mutations satisfies all
the structural invariants. -/
theorem reachable_WF {t : Tree} (h : Reachable t) : WF t := by
  induction h with
  | new root => exact new_WF root
  | add p c _ hok ih => exact add_node_WF ih hok
  | swap i j _ hok ih => exact swap_WF_of_ok ih hok
  | prune n np _ hok ih => exact prune_WF ih hok

end Tree

end SMCITE

-- ## subtree_size counts the subtree exactly (C6 machinery)

namespace SMCITE

namespace Tree

theorem sum_setList (s : Finset Node) (f : Node → Nat) :
    ((setList s).map f).sum = s.sum f := by
  have h1 : (↑(setList s) : Multiset Node) = s.val := coe_setList s
  calc ((setList s).map f).sum
      = ((↑((setList s).map f) : Multiset Nat)).sum := (Multiset.sum_coe _).symm
    _ = (Multiset.map f ↑(setList s)).sum := by rw [Multiset.map_coe]
    _ = (Multiset.map f s.val).sum := by rw [h1]
    _ = s.sum f := rfl

theorem descendants_eq_biUnion {t : Tree} (h : WF t) (n : Node) :
    t.get_descendants n =
      (t.childrenOf n).biUnion fun c => insert c (t.get_descendants c) := by
  ext x
  rw [get_descendants_iff h, Finset.mem_biUnion]
  constructor
  · intro hd
    obtain ⟨c, hnc, hcx⟩ := (Relation.TransGen.head'_iff).mp hd
    refine ⟨c, hnc, ?_⟩
    rcases (Relation.reflTransGen_iff_eq_or_transGen).mp hcx with heq | htg
    · simp [heq]
    · simp [Finset.mem_insert, (get_descendants_iff h c x).mpr htg]
  · rintro ⟨c, hnc, hcx⟩
    rcases Finset.mem_insert.mp hcx with heq | hdesc
    · exact heq ▸ Relation.TransGen.single hnc
    · exact Relation.TransGen.head hnc ((get_descendants_iff h c x).mp hdesc)

theorem subtree_card_step {t : Tree} (h : WF t) {n : Node} (hn : n ∈ t.nodes) :
    (insert n (t.get_descendants n)).card =
      1 + (t.childrenOf n).sum fun c => (insert c (t.get_descendants c)).card := by
  have hnotmem : n ∉ t.get_descendants n := by
    rw [get_descendants_iff h]
    exact descendant_irrefl h n
  rw [Finset.card_insert_of_not_mem hnotmem, descendants_eq_biUnion h n]
  rw [Finset.card_biUnion]
  · omega
  · intro c1 h1 c2 h2 hne
    rw [Finset.disjoint_left]
    intro x hx1 hx2
    have hr1 : Relation.ReflTransGen (childRel t) c1 x := by
      rcases Finset.mem_insert.mp hx1 with heq | hd
      · exact heq ▸ Relation.ReflTransGen.refl
      · exact ((get_descendants_iff h c1 x).mp hd).to_reflTransGen
    have hr2 : Relation.ReflTransGen (childRel t) c2 x := by
      rcases Finset.mem_insert.mp hx2 with heq | hd
      · exact heq ▸ Relation.ReflTransGen.refl
      · exact ((get_descendants_iff h c2 x).mp hd).to_reflTransGen
    exact sibling_subtrees_disjoint h h1 h2 hne hr1 hr2

theorem size_dfs_correct {t : Tree} (h : WF t) {D : Node → Nat} (hD0 : D t.root = 0)
    (hDs : ∀ {n p : Node}, t.parents.lookup n = some p → D n = D p + 1) :
    ∀ fuel n, n ∈ t.nodes → t.nodes.card ≤ fuel + D n →
    size_dfs t fuel n = (insert n (t.get_descendants n)).card := by
  intro fuel
  induction fuel with
  | zero =>
    intro n hn hfuel
    have := depth_lt_card h hD0 (fun {a b} => hDs) hn
    omega
  | succ fuel ih =>
    intro n hn hfuel
    show 1 + ((t.childList n).map (size_dfs t fuel)).sum = _
    have hmap : (t.childList n).map (size_dfs t fuel) =
        (t.childList n).map fun c => (insert c (t.get_descendants c)).card := by
      apply List.map_congr_left
      intro c hc
      have hrel : childRel t n c := mem_childList.mp hc
      have hcmem : c ∈ t.nodes := (childRel_mem h hrel).2
      have hdepth : D c = D n + 1 := childRel_depth h (fun {a b} => hDs) hrel
      exact ih c hcmem (by omega)
    rw [hmap]
    show 1 + ((setList (t.childrenOf n)).map fun c =>
      (insert c (t.get_descendants c)).card).sum = _
    rw [sum_setList, subtree_card_step h hn]

theorem subtree_all {t : Tree} (h : WF t) :
    insert t.root (t.get_descendants t.root) = t.nodes := by
  ext x
  rw [Finset.mem_insert, get_descendants_iff h]
  constructor
  · rintro (heq | hd)
    · exact heq ▸ h.root_mem
    · exact (descendant_mem h hd).2
  · intro hx
    by_cases hxr : x = t.root
    · exact Or.inl hxr
    · exact Or.inr (root_reaches h hx hxr)

/-- On a well-formed tree, `subtree_size(get_root())` succeeds and returns
exactly `len()`. -/
theorem subtree_size_root {t : Tree} (h : WF t) :
    t.subtree_size t.get_root = .ok t.len := by
  obtain ⟨D, hD0, hDs⟩ := h.acyclic
  unfold subtree_size get_root len
  rw [if_pos h.root_mem]
  rw [size_dfs_correct h hD0 (fun {a b} => hDs) t.nodes.card t.root h.root_mem
    (by omega), subtree_all h]

end Tree

end SMCITE

-- ## is_valid: true on well-formed trees, false under corruption (C3 machinery)

namespace SMCITE

namespace Tree

theorem is_valid_of_WF {t : Tree} (h : WF t) : t.is_valid = true := by
  unfold is_valid
  simp only [Bool.and_eq_true, List.all_eq_true]
  refine ⟨⟨?_, ?_⟩, ?_⟩
  · intro n hn
    rw [mem_setList] at hn
    by_cases hr : n = t.root
    · simp [hr]
    · have hsome := h.parents_total hn hr
      simp [hsome]
  · intro p hp c hc
    rw [mem_setList] at hc
    have hl := h.consistent.mp hc
    simp [hl]
  · intro n hn
    rw [mem_setList] at hn
    have h1 : n ∉ t.childrenOf n := fun hm => no_self_parent h n (h.consistent.mp hm)
    cases hl : t.parents.lookup n with
    | none => simp [h1]
    | some p =>
      have hpn : p ≠ n := fun heq => no_self_parent h n (heq ▸ hl)
      simp [h1, hpn]

theorem is_valid_corrupt {t : Tree} {p c : Node} {s : Finset Node}
    (hl : t.children.lookup p = some s) (hc : c ∈ s)
    (hbad : t.parents.lookup c ≠ some p) : t.is_valid = false := by
  have hpmem : p ∈ t.children := Finmap.lookup_isSome.mp (by rw [hl]; rfl)
  have hcOf : c ∈ t.childrenOf p := by rw [childrenOf, hl]; exact hc
  rw [Bool.eq_false_iff]
  intro hval
  unfold is_valid at hval
  simp only [Bool.and_eq_true, List.all_eq_true] at hval
  have hmid := hval.1.2 p (mem_setList.mpr (Finmap.mem_keys.mpr hpmem)) c
    (mem_setList.mpr hcOf)
  cases hl2 : t.parents.lookup c with
  | none => rw [hl2] at hmid; simp at hmid
  | some cp =>
    rw [hl2] at hmid
    simp at hmid
    exact hbad (by rw [hl2, hmid])

end Tree

end SMCITE

-- ## Serialization round-trip (C7 machinery)

namespace SMCITE

namespace Tree

theorem vtm_lookup_not_mem : ∀ (l : List (Node × List Node)) (acc : ChildMap) (x : Node),
    x ∉ l.map Prod.fst →
    (l.foldl (fun acc kv => acc.insert kv.1 kv.2.toFinset) acc).lookup x = acc.lookup x := by
  intro l
  induction l with
  | nil => intro acc x _; rfl
  | cons kv rest ih =>
    intro acc x hx
    simp only [List.map_cons, List.mem_cons, not_or] at hx
    rw [List.foldl_cons, ih _ _ hx.2, Finmap.lookup_insert_of_ne _ hx.1]

theorem vtm_lookup_mem : ∀ (l : List (Node × List Node)) (acc : ChildMap) (k : Node)
    (v : List Node), (k, v) ∈ l → (l.map Prod.fst).Nodup →
    (l.foldl (fun acc kv => acc.insert kv.1 kv.2.toFinset) acc).lookup k
      = some v.toFinset := by
  intro l
  induction l with
  | nil => intro acc k v h _; exact absurd h (List.not_mem_nil _)
  | cons kv rest ih =>
    intro acc k v hmem hnd
    simp only [List.map_cons, List.nodup_cons] at hnd
    rw [List.foldl_cons]
    rcases List.mem_cons.mp hmem with heq | hrest
    · have h1 : kv.1 = k := by rw [← heq]
      have h2 : kv.2 = v := by rw [← heq]
      rw [vtm_lookup_not_mem rest _ k (h1 ▸ hnd.1), h1, h2, Finmap.lookup_insert]
    · exact ih _ k v hrest hnd.2

theorem ptv_lookup_not_mem : ∀ (l : List (Node × Node)) (acc : ParentMap) (x : Node),
    x ∉ l.map Prod.fst →
    (l.foldl (fun acc kv => acc.insert kv.1 kv.2) acc).lookup x = acc.lookup x := by
  intro l
  induction l with
  | nil => intro acc x _; rfl
  | cons kv rest ih =>
    intro acc x hx
    simp only [List.map_cons, List.mem_cons, not_or] at hx
    rw [List.foldl_cons, ih _ _ hx.2, Finmap.lookup_insert_of_ne _ hx.1]

theorem ptv_lookup_mem : ∀ (l : List (Node × Node)) (acc : ParentMap) (k : Node)
    (v : Node), (k, v) ∈ l → (l.map Prod.fst).Nodup →
    (l.foldl (fun acc kv => acc.insert kv.1 kv.2) acc).lookup k = some v := by
  intro l
  induction l with
  | nil => intro acc k v h _; exact absurd h (List.not_mem_nil _)
  | cons kv rest ih =>
    intro acc k v hmem hnd
    simp only [List.map_cons, List.nodup_cons] at hnd
    rw [List.foldl_cons]
    rcases List.mem_cons.mp hmem with heq | hrest
    · have h1 : kv.1 = k := by rw [← heq]
      have h2 : kv.2 = v := by rw [← heq]
      rw [ptv_lookup_not_mem rest _ k (h1 ▸ hnd.1), h1, h2, Finmap.lookup_insert]
    · exact ih _ k v hrest hnd.2

theorem map_fst_map_to_vec (m : ChildMap) :
    (map_to_vec m).map Prod.fst = setList m.keys := by
  unfold map_to_vec
  rw [List.map_map]
  show (setList m.keys).map (fun k => k) = setList m.keys
  exact List.map_id' _

theorem map_fst_parents_to_vec (m : ParentMap) :
    (parents_to_vec m).map Prod.fst = setList m.keys := by
  unfold parents_to_vec
  rw [List.map_map]
  show (setList m.keys).map (fun k => k) = setList m.keys
  exact List.map_id' _

/-- `_vec_to_map` is a left inverse of `_map_to_vec`. -/
theorem vec_to_map_map_to_vec (m : ChildMap) : vec_to_map (map_to_vec m) = m := by
  apply Finmap.ext_lookup
  intro x
  by_cases hx : x ∈ m
  · have hsome : (m.lookup x).isSome := Finmap.lookup_isSome.mpr hx
    obtain ⟨s, hs⟩ := Option.isSome_iff_exists.mp hsome
    have hxk : x ∈ setList m.keys := mem_setList.mpr (Finmap.mem_keys.mpr hx)
    have hpair : (x, setList ((m.lookup x).getD ∅)) ∈ map_to_vec m := by
      unfold map_to_vec
      exact List.mem_map_of_mem _ hxk
    have hnd : ((map_to_vec m).map Prod.fst).Nodup := by
      rw [map_fst_map_to_vec]
      exact setList_nodup _
    unfold vec_to_map
    rw [vtm_lookup_mem _ _ _ _ hpair hnd, hs]
    simp [setList_toFinset]
  · have hxk : x ∉ (map_to_vec m).map Prod.fst := by
      rw [map_fst_map_to_vec, mem_setList]
      exact fun hk => hx (Finmap.mem_keys.mp hk)
    unfold vec_to_map
    rw [vtm_lookup_not_mem _ _ _ hxk, Finmap.lookup_eq_none.mpr hx]
    simp

theorem vec_to_parents_parents_to_vec (m : ParentMap) :
    vec_to_parents (parents_to_vec m) = m := by
  apply Finmap.ext_lookup
  intro x
  by_cases hx : x ∈ m
  · have hsome : (m.lookup x).isSome := Finmap.lookup_isSome.mpr hx
    obtain ⟨s, hs⟩ := Option.isSome_iff_exists.mp hsome
    have hxk : x ∈ setList m.keys := mem_setList.mpr (Finmap.mem_keys.mpr hx)
    have hpair : (x, (m.lookup x).getD 0) ∈ parents_to_vec m := by
      unfold parents_to_vec
      exact List.mem_map_of_mem _ hxk
    have hnd : ((parents_to_vec m).map Prod.fst).Nodup := by
      rw [map_fst_parents_to_vec]
      exact setList_nodup _
    unfold vec_to_parents
    rw [ptv_lookup_mem _ _ _ _ hpair hnd, hs]
    simp
  · have hxk : x ∉ (parents_to_vec m).map Prod.fst := by
      rw [map_fst_parents_to_vec, mem_setList]
      exact fun hk => hx (Finmap.mem_keys.mp hk)
    unfold vec_to_parents
    rw [ptv_lookup_not_mem _ _ _ hxk, Finmap.lookup_eq_none.mpr hx]
    simp

/-- Serializing and deserializing reconstructs the tree exactly (for every
tree, not only valid ones). -/
theorem ser_round_trip (t : Tree) : deserializeTree (serializeTree t) = t := by
  apply tree_ext
  · rfl
  · show (setList t.nodes).toFinset = t.nodes
    exact setList_toFinset _
  · intro x
    show (vec_to_map (map_to_vec t.children)).lookup x = t.children.lookup x
    rw [vec_to_map_map_to_vec]
  · intro x
    show (vec_to_parents (parents_to_vec t.parents)).lookup x = t.parents.lookup x
    rw [vec_to_parents_parents_to_vec]

end Tree

end SMCITE

-- ## Shared concrete facts and remaining helper lemmas

namespace SMCITE

namespace Tree

theorem simpleTree_reachable : Reachable simpleTree :=
  Reachable.add 10 11
    (Reachable.add 0 10
      (Reachable.add 2 3
        (Reachable.add 1 2
          (Reachable.add 0 1 (Reachable.new 0) (by decide))
          (by decide))
        (by decide))
      (by decide))
    (by decide)

theorem simpleTree_WF : WF simpleTree :=
  reachable_WF simpleTree_reachable

theorem swap_error_state_WF {t : Tree} (h : WF t) {i j : Node} {e : TreeError}
    (he : (t.swap_labels i j).1 = .error e) : (t.swap_labels i j).2 = t := by
  by_cases hi : i ∈ t.nodes
  · by_cases hj : j ∈ t.nodes
    · by_cases hij : i = j
      · subst hij
        rw [swap_labels_same hi] at he
        simp at he
      · by_cases hmut : t.parents.lookup i = some j ∧ t.parents.lookup j = some i
        · exact (not_mutual_adjacent h hmut.1 hmut.2).elim
        · obtain ⟨hok, _⟩ := swap_ok_spec h hi hj hij hmut
          rw [hok] at he
          simp at he
    · rw [swap_labels_notfound (Or.inr hj)]
  · rw [swap_labels_notfound (Or.inl hi)]

theorem height_no_entry {t : Tree} {node : Node} (hl : t.children.lookup node = none) :
    t.calculate_height_from_node node = 1 := by
  unfold calculate_height_from_node
  cases hcard : t.nodes.card with
  | zero => rfl
  | succ k =>
    show height_dfs t (k + 1) node = 1
    unfold height_dfs
    rw [hl]

-- ## The claims

/-- C1: as stated — "for every tree, an error from add_node, swap_labels or
prune_and_reattach leaves the tree exactly in its pre-call state" — the claim
is FALSE: `swap_labels` rewrites the root before its defensive mutual-adjacency
`TopologyError` check fires (see `claim_C1_counterexample`).  Amended to
well-formed trees it holds: `add_node` and `prune_and_reattach` leave any tree
unchanged on error, and on a tree satisfying the invariants every error of
`swap_labels` also leaves it unchanged. -/
theorem claim_C1 :
    (∀ (t : Tree) (p c : Node) (e : TreeError),
      (t.add_node p c).1 = .error e → (t.add_node p c).2 = t) ∧
    (∀ (t : Tree) (n np : Node) (e : TreeError),
      (t.prune_and_reattach n np).1 = .error e → (t.prune_and_reattach n np).2 = t) ∧
    (∀ (t : Tree), WF t → ∀ (i j : Node) (e : TreeError),
      (t.swap_labels i j).1 = .error e → (t.swap_labels i j).2 = t) :=
  ⟨fun _ _ _ _ he => add_node_error_state he,
   fun _ _ _ _ he => prune_error_state he,
   fun _ h _ _ _ he => swap_error_state_WF h he⟩

/-- C1 witness: concrete failing calls on the test tree leave it unchanged. -/
theorem claim_C1_witness :
    (simpleTree.add_node 99 100).2 = simpleTree ∧
    (simpleTree.prune_and_reattach 1 3).2 = simpleTree ∧
    (simpleTree.swap_labels 1 99).2 = simpleTree :=
  ⟨claim_C1.1 simpleTree 99 100 .NodeNotFound (by decide),
   claim_C1.2.1 simpleTree 1 3 .TopologyError (by decide),
   claim_C1.2.2 simpleTree simpleTree_WF 1 99 .NodeNotFound (by decide)⟩

/-- C1 counterexample: on the corrupted state `badT` (labels 0 and 1 mutually
adjacent), `swap_labels 0 1` reports `TopologyError` but has already replaced
the root, so the post-state differs from the pre-state. -/
theorem claim_C1_counterexample :
    (badT.swap_labels 0 1).1 = .error .TopologyError ∧
    (badT.swap_labels 0 1).2 ≠ badT := by
  refine ⟨by decide, fun heq => ?_⟩
  have h1 : (badT.swap_labels 0 1).2.root = 1 := by decide
  rw [heq] at h1
  exact absurd h1 (by decide)

/-- C2: on a well-formed tree with both labels present, `swap_labels i j`
twice succeeds both times and restores the original tree (involution). -/
theorem claim_C2 {t : Tree} (h : WF t) {i j : Node} (hi : i ∈ t.nodes) (hj : j ∈ t.nodes) :
    (t.swap_labels i j).1 = .ok () ∧
    ((t.swap_labels i j).2.swap_labels i j).1 = .ok () ∧
    ((t.swap_labels i j).2.swap_labels i j).2 = t := by
  by_cases hij : i = j
  · subst hij
    have hs : t.swap_labels i i = (.ok (), t) := swap_labels_same hi
    refine ⟨?_, ?_, ?_⟩
    · rw [hs]
    · show ((t.swap_labels i i).2.swap_labels i i).1 = .ok ()
      rw [hs]
      show (t.swap_labels i i).1 = .ok ()
      rw [hs]
    · show ((t.swap_labels i i).2.swap_labels i i).2 = t
      rw [hs]
      show (t.swap_labels i i).2 = t
      rw [hs]
  · exact swap_swap h hi hj hij (fun hm => not_mutual_adjacent h hm.1 hm.2)

/-- C2 witness: swapping 1 and 3 twice on the test tree restores it. -/
theorem claim_C2_witness :
    (simpleTree.swap_labels 1 3).1 = .ok () ∧
    ((simpleTree.swap_labels 1 3).2.swap_labels 1 3).1 = .ok () ∧
    ((simpleTree.swap_labels 1 3).2.swap_labels 1 3).2 = simpleTree :=
  claim_C2 simpleTree_WF (by decide) (by decide)

/-- C3: `is_valid` returns true on every tree reachable by successful
mutations from `Tree::new`, and false on any state where a member of a
`children` entry has a disagreeing (or missing) `parents` mapping. -/
theorem claim_C3 :
    (∀ t : Tree, Reachable t → t.is_valid = true) ∧
    (∀ (t : Tree) (p c : Node) (s : Finset Node), t.children.lookup p = some s →
      c ∈ s → t.parents.lookup c ≠ some p → t.is_valid = false) :=
  ⟨fun _ ht => is_valid_of_WF (reachable_WF ht),
   fun _ _ _ _ hl hc hbad => is_valid_corrupt hl hc hbad⟩

/-- C3 witness: the test tree validates; the corrupted state `corruptT`
(children entry `5 ↦ {7}` with no `parents` entry for 7) does not. -/
theorem claim_C3_witness : simpleTree.is_valid = true ∧ corruptT.is_valid = false :=
  ⟨claim_C3.1 simpleTree simpleTree_reachable,
   claim_C3.2 corruptT 5 7 {7} rfl (by decide) (by decide)⟩

/-- C4: the failure modes of `prune_and_reattach` in their checked order —
absent label ⇒ `NodeNotFound`; `node = new_parent` ⇒ `NodeAlreadyExists`;
`new_parent` a strict descendant of `node` ⇒ `TopologyError` — each leaving a
well-formed tree unchanged, and the call succeeds otherwise. -/
theorem claim_C4 {t : Tree} (h : WF t) (n np : Node) :
    (n ∉ t.nodes ∨ np ∉ t.nodes →
      t.prune_and_reattach n np = (.error .NodeNotFound, t)) ∧
    (n ∈ t.nodes → np ∈ t.nodes → n = np →
      t.prune_and_reattach n np = (.error .NodeAlreadyExists, t)) ∧
    (n ∈ t.nodes → np ∈ t.nodes → n ≠ np → Descendant t n np →
      t.prune_and_reattach n np = (.error .TopologyError, t)) ∧
    (n ∈ t.nodes → np ∈ t.nodes → n ≠ np → ¬ Descendant t n np →
      (t.prune_and_reattach n np).1 = .ok ()) := by
  refine ⟨prune_notfound, prune_self, ?_, ?_⟩
  · intro hn hnp hne hdesc
    exact prune_cycle hn hnp hne ((get_descendants_iff h n np).mpr hdesc)
  · intro hn hnp hne hdesc
    exact prune_ok_iff.mpr
      ⟨hn, hnp, hne, fun hm => hdesc ((get_descendants_iff h n np).mp hm)⟩

/-- C4 witness: each failure mode and one success on the test tree. -/
theorem claim_C4_witness :
    simpleTree.prune_and_reattach 1 99 = (.error .NodeNotFound, simpleTree) ∧
    simpleTree.prune_and_reattach 1 1 = (.error .NodeAlreadyExists, simpleTree) ∧
    simpleTree.prune_and_reattach 1 3 = (.error .TopologyError, simpleTree) ∧
    (simpleTree.prune_and_reattach 1 10).1 = .ok () :=
  ⟨(claim_C4 simpleTree_WF 1 99).1 (Or.inr (by decide)),
   (claim_C4 simpleTree_WF 1 1).2.1 (by decide) (by decide) rfl,
   (claim_C4 simpleTree_WF 1 3).2.2.1 (by decide) (by decide) (by decide)
     (Relation.TransGen.tail
       (Relation.TransGen.single
         (show childRel simpleTree 1 2 from
           (by decide : (2 : Node) ∈ simpleTree.childrenOf 1)))
       (show childRel simpleTree 2 3 from
         (by decide : (3 : Node) ∈ simpleTree.childrenOf 2))),
   (claim_C4 simpleTree_WF 1 10).2.2.2 (by decide) (by decide) (by decide)
     (fun hd => absurd ((get_descendants_iff simpleTree_WF 1 10).mpr hd) (by decide))⟩

/-- C5: on a well-formed tree, pruning the root onto any other present label
is rejected with `TopologyError` purely by the descendant check (the code has
no explicit root special-case; every other node is a descendant of the root). -/
theorem claim_C5 {t : Tree} (h : WF t) {x : Node} (hx : x ∈ t.nodes)
    (hxr : x ≠ t.root) :
    t.prune_and_reattach t.root x = (.error .TopologyError, t) :=
  prune_root_rejected h hx hxr

/-- C5 witness: pruning the root of the test tree onto label 3 fails. -/
theorem claim_C5_witness :
    simpleTree.prune_and_reattach simpleTree.root 3 = (.error .TopologyError, simpleTree) :=
  claim_C5 simpleTree_WF (by decide) (by decide)

/-- C6: on every tree reachable by successful mutations,
`subtree_size(get_root())` succeeds and equals `len()`. -/
theorem claim_C6 {t : Tree} (h : Reachable t) :
    t.subtree_size t.get_root = .ok t.len :=
  subtree_size_root (reachable_WF h)

/-- C6 witness: the test tree has subtree size 6 at the root, its length. -/
theorem claim_C6_witness : simpleTree.subtree_size simpleTree.get_root = .ok simpleTree.len :=
  claim_C6 simpleTree_reachable

/-- C7: serialize-then-deserialize reconstructs every tree exactly, and
`_vec_to_map` is a left inverse of `_map_to_vec`. -/
theorem claim_C7 :
    (∀ t : Tree, deserializeTree (serializeTree t) = t) ∧
    (∀ m : ChildMap, vec_to_map (map_to_vec m) = m) :=
  ⟨ser_round_trip, vec_to_map_map_to_vec⟩

/-- C8: on the tree with root 0 and edges (0,1),(1,2),(2,3),(0,10),(10,11),
`swap_labels(1,3)` succeeds and yields exactly the tree with root 0 and edges
(0,3),(3,2),(2,1),(0,10),(10,11). -/
theorem claim_C8 :
    (simpleTree.swap_labels 1 3).1 = .ok () ∧
    (simpleTree.swap_labels 1 3).2 = swapExpectedT := by
  constructor
  · decide
  · rw [tree_eq_iff_ser]
    decide

/-- C9: `get_descendants` is fuel-stable on EVERY tree state (any fuel at or
beyond `descend_fuel` gives the same set — the visited-set guard bounds the
recursion, cycles included), and on well-formed trees it returns exactly the
strict descendants. -/
theorem claim_C9 :
    (∀ (t : Tree) (node : Node) (fuel : Nat), descend_fuel t ≤ fuel →
      collect_descendants t fuel node ∅ = t.get_descendants node) ∧
    (∀ t : Tree, WF t → ∀ node x : Node,
      x ∈ t.get_descendants node ↔ Descendant t node x) :=
  ⟨fun t node fuel hf => collect_descendants_stable t node fuel hf,
   fun _ ht node x => get_descendants_iff ht node x⟩

/-- C9 witness: surplus fuel changes nothing on the test tree, and membership
matches descendant-reachability there. -/
theorem claim_C9_witness :
    collect_descendants simpleTree 10 1 ∅ = simpleTree.get_descendants 1 ∧
    (3 ∈ simpleTree.get_descendants 1 ↔ Descendant simpleTree 1 3) :=
  ⟨claim_C9.1 simpleTree 1 10 (by decide),
   claim_C9.2 simpleTree simpleTree_WF 1 3⟩

/-- C10: as stated — "every label absent from the tree returns height 1" —
the claim is FALSE on corrupted states: an absent label that still has a
`children` entry is treated as an internal node (see
`claim_C10_counterexample`).  Amended: `calculate_height_from_node` performs
no membership check and never errors; any label with no `children` entry
returns 1 exactly as a leaf, and on a well-formed tree every absent label has
no such entry, so it returns 1 — unlike `subtree_size`, which reports
`NodeNotFound` on absent labels. -/
theorem claim_C10 (t : Tree) (node : Node) :
    (t.children.lookup node = none → t.calculate_height_from_node node = 1) ∧
    (node ∉ t.nodes → t.subtree_size node = .error .NodeNotFound) ∧
    (WF t → node ∉ t.nodes → t.calculate_height_from_node node = 1) := by
  refine ⟨height_no_entry, ?_, ?_⟩
  · intro hmem
    unfold subtree_size
    rw [if_neg hmem]
  · intro h hmem
    cases hl : t.children.lookup node with
    | none => exact height_no_entry hl
    | some cs => exact absurd (h.entries_mem hl) hmem

/-- C10 witness: absent labels of the (well-formed) test tree get height 1
while `subtree_size` errors on them. -/
theorem claim_C10_witness :
    simpleTree.calculate_height_from_node 99 = 1 ∧
    simpleTree.subtree_size 99 = .error .NodeNotFound ∧
    simpleTree.calculate_height_from_node 98 = 1 :=
  ⟨(claim_C10 simpleTree 99).1 (by decide),
   (claim_C10 simpleTree 99).2.1 (by decide),
   (claim_C10 simpleTree 98).2.2 simpleTree_WF (by decide)⟩

/-- C10 counterexample: in the corrupted state `corruptT` the label 5 is
absent from `nodes` yet `calculate_height_from_node 5` returns 2, not 1. -/
theorem claim_C10_counterexample :
    5 ∉ corruptT.nodes ∧ corruptT.calculate_height_from_node 5 = 2 := by
  constructor
  · decide
  · decide

end Tree

end SMCITE
